import Mathlib

/-!
# Verification of the edegal tree-consistency and media-derivation engine

Shallow embedding of `src/backend/edegal/models/album.py` and
`src/backend/edegal/models/media.py`.  Strings are modelled as `List Char`
(`Str`), the database as explicit lists of records, and file-system side
effects as explicit effect traces.
-/

namespace Edegal

/-- Strings are modelled as lists of characters. -/
abbrev Str := List Char

/-! ## Date values and calendar validity

Python's `datetime.date(year, month, day)` raises `ValueError` unless
`MINYEAR (1) ≤ year ≤ MAXYEAR (9999)`, `1 ≤ month ≤ 12` and
`1 ≤ day ≤ days in that month` (Gregorian, proleptic). -/

structure DateV where
  year : Nat
  month : Nat
  day : Nat
deriving DecidableEq, Repr

/-- Gregorian leap-year rule, as used by Python's `datetime.date`. -/
def isLeap (y : Nat) : Bool := y % 4 == 0 && (y % 100 != 0 || y % 400 == 0)

/-- Number of days in a month of the proleptic Gregorian calendar. -/
def daysInMonth (y m : Nat) : Nat :=
  if m == 2 then (if isLeap y then 29 else 28)
  else if m == 4 || m == 6 || m == 9 || m == 11 then 30
  else 31

/-- Whether `datetime.date(y, m, d)` succeeds (no `ValueError`). -/
def validYMD (y m d : Nat) : Bool :=
  1 ≤ y && y ≤ 9999 && 1 ≤ m && m ≤ 12 && 1 ≤ d && d ≤ daysInMonth y m

/-! ## The date-guessing regular expressions

`album.py` defines
`YEAR = (?P<year>\d{4})`, `MONTH = (?P<month>[01]?\d)`, `DAY = (?P<day>[0-3]?\d)`
and `GUESS_DATE_REGEXEN = (re.compile(f'{YEAR}-{MONTH}-{DAY}'), re.compile(f'{DAY}.{MONTH}.{YEAR}'))`.
Note that in the second ("Finnish") pattern the separator is an unescaped
regex `.`, matching any character except a newline.

The matchers below implement Python `re` semantics for exactly these two
patterns: a match attempt at a fixed position with greedy `?` quantifiers
and backtracking, and `search` trying positions left to right. -/

def isDig (c : Char) : Bool := c.isDigit

/-- Membership in a character range class such as `[0-3]` (by code point). -/
def inCls (lo hi c : Char) : Bool := lo ≤ c && c ≤ hi

def digitVal (c : Char) : Nat := c.toNat - '0'.toNat

def num2 (a b : Char) : Nat := 10 * digitVal a + digitVal b

def num4 (a b c d : Char) : Nat :=
  1000 * digitVal a + 100 * digitVal b + 10 * digitVal c + digitVal d

/-- Match `[0-3]?\d` at the head with nothing after it in the pattern
(greedy: the two-character form is preferred). Returns `int(day group)`. -/
def matchDayEnd : Str → Option Nat
  | c1 :: c2 :: _ =>
    if inCls '0' '3' c1 && isDig c2 then some (num2 c1 c2)
    else if isDig c1 then some (digitVal c1) else none
  | [c1] => if isDig c1 then some (digitVal c1) else none
  | [] => none

/-- Match `[01]?\d` as a single-character month, then `-`, then `[0-3]?\d`. -/
def isoMonthDayOne : Str → Option (Nat × Nat)
  | m1 :: s :: rest =>
    if isDig m1 && s = '-' then (matchDayEnd rest).map (fun d => (digitVal m1, d)) else none
  | _ => none

/-- Match `[01]?\d-[0-3]?\d` at the head, with greedy month and
backtracking to the one-character month on failure. -/
def isoMonthDay : Str → Option (Nat × Nat)
  | m1 :: m2 :: rest =>
    if inCls '0' '1' m1 && isDig m2 then
      match rest with
      | s :: rest2 =>
        if s = '-' then
          match matchDayEnd rest2 with
          | some d => some (num2 m1 m2, d)
          | none => isoMonthDayOne (m1 :: m2 :: rest)
        else isoMonthDayOne (m1 :: m2 :: rest)
      | _ => isoMonthDayOne (m1 :: m2 :: rest)
    else isoMonthDayOne (m1 :: m2 :: rest)
  | l => isoMonthDayOne l

/-- Attempt of the ISO pattern `(?P<year>\d{4})-(?P<month>[01]?\d)-(?P<day>[0-3]?\d)`
at a fixed position. Returns `(year, month, day)` as numbers. -/
def matchISOAt : Str → Option (Nat × Nat × Nat)
  | y1 :: y2 :: y3 :: y4 :: s :: rest =>
    if isDig y1 && isDig y2 && isDig y3 && isDig y4 && s = '-' then
      (isoMonthDay rest).map (fun p => (num4 y1 y2 y3 y4, p.1, p.2))
    else none
  | _ => none

/-- Match `.` (any character except newline) then `(?P<year>\d{4})`;
the pattern ends there, so the rest of the string is unconstrained. -/
def finAnyYear : Str → Option Nat
  | c :: y1 :: y2 :: y3 :: y4 :: _ =>
    if c != '\n' && isDig y1 && isDig y2 && isDig y3 && isDig y4 then
      some (num4 y1 y2 y3 y4)
    else none
  | _ => none

/-- Match the one-character month `[01]?\d` then `.` then the year. -/
def finTailOne : Str → Option (Nat × Nat)
  | m1 :: rest =>
    if isDig m1 then (finAnyYear rest).map (fun y => (digitVal m1, y)) else none
  | [] => none

/-- Match `[01]?\d.\d{4}` (month, any-char, year) with greedy month and
backtracking. Returns `(month, year)`. -/
def finTail2 : Str → Option (Nat × Nat)
  | m1 :: m2 :: rest =>
    if inCls '0' '1' m1 && isDig m2 then
      match finAnyYear rest with
      | some y => some (num2 m1 m2, y)
      | none => finTailOne (m1 :: m2 :: rest)
    else finTailOne (m1 :: m2 :: rest)
  | l => finTailOne l

/-- After the day group: `.` (any character except newline), then month,
separator and year. -/
def finAfterDay : Str → Option (Nat × Nat)
  | c :: rest => if c != '\n' then finTail2 rest else none
  | [] => none

/-- Attempt of the Finnish pattern with a one-character day group. -/
def matchFinAtOne : Str → Option (Nat × Nat × Nat)
  | d1 :: rest =>
    if isDig d1 then (finAfterDay rest).map (fun p => (p.2, p.1, digitVal d1)) else none
  | [] => none

/-- Attempt of the Finnish pattern `(?P<day>[0-3]?\d).(?P<month>[01]?\d).(?P<year>\d{4})`
at a fixed position (the separators are regex `.`): greedy day group with
backtracking. Returns `(year, month, day)` as numbers. -/
def matchFinAt : Str → Option (Nat × Nat × Nat)
  | d1 :: d2 :: rest =>
    if inCls '0' '3' d1 && isDig d2 then
      match finAfterDay rest with
      | some p => some (p.2, p.1, num2 d1 d2)
      | none => matchFinAtOne (d1 :: d2 :: rest)
    else matchFinAtOne (d1 :: d2 :: rest)
  | l => matchFinAtOne l

/-- Model of `re.search`: try the pattern at each position, left to right, and
return the first (leftmost) successful match. -/
def reSearch (f : Str → Option (Nat × Nat × Nat)) : Str → Option (Nat × Nat × Nat)
  | [] => none
  | s :: rest => f (s :: rest) <|> reSearch f rest

/-- Model of `GUESS_DATE_REGEXEN`: the ISO pattern is tried before the Finnish one. -/
def GUESS_DATE_REGEXEN : List (Str → Option (Nat × Nat × Nat)) :=
  [matchISOAt, matchFinAt]

/-- The loop `for regex in GUESS_DATE_REGEXEN` of `Album._guess_date`:
for each pattern, `regex.search(description) or regex.search(title)`;
on a match, `date(int(year), int(month), int(day))` — a `ValueError`
(calendrically invalid date) is caught and the next pattern is tried. -/
def guessFromRegexen : List (Str → Option (Nat × Nat × Nat)) → Str → Str → Option DateV
  | [], _, _ => none
  | r :: rs, description, title =>
    match reSearch r description <|> reSearch r title with
    | some (y, m, d) =>
      if validYMD y m d then some ⟨y, m, d⟩ else guessFromRegexen rs description title
    | none => guessFromRegexen rs description title

/-- The text-scanning part of `Album._guess_date` (steps after the EXIF
attempt). -/
def guessTextDate (description title : Str) : Option DateV :=
  guessFromRegexen GUESS_DATE_REGEXEN description title

/-- The exception classes caught by `Album._guess_date` around the EXIF
extraction: `(RuntimeError, LookupError, TypeError, ValueError, AttributeError)`. -/
inductive ExifError
  | runtimeError
  | lookupError
  | typeError
  | valueError
  | attributeError
deriving DecidableEq, Repr

/-- Model of `Album._guess_date`. The EXIF source
`self.cover_picture.original.get_exif_datetime().date()` lives in code
outside the two source files; it is modelled from the spec as an input that
either yields a date or fails with one of the caught exception classes
(`Modelled from the spec: the Image Codec's metadata reader, whose decoding
or missing-metadata failures are caught and logged`). On failure the code
falls through to the text scan; if nothing matches, the function returns
`None` (the Python function falls off the end). -/
def guess_date (exif : Except ExifError DateV) (description title : Str) : Option DateV :=
  match exif with
  | .ok d => some d
  | .error _ => guessTextDate description title

/-! ## The album tree

`Album` records carry the fields the claims depend on.  `exifDate` on a
picture models the outcome of `picture.original.get_exif_datetime()`:
either a date or one of the exception classes caught by `_guess_date`.
`hasThumbnail` models the existence of a `Media` with `role='thumbnail'`
for the picture (the join `cover_picture__media__role='thumbnail'`), and
`hasOriginal` the existence of a `Media` with `role='original'`. -/

structure AlbumRec where
  id : Nat
  parent : Option Nat
  slug : Str
  path : Str
  title : Str
  description : Str
  coverPicture : Option Nat
  date : Option DateV
deriving DecidableEq, Repr

deriving instance DecidableEq for Except

structure PictureRec where
  id : Nat
  albumId : Nat
  slug : Str
  path : Str
  isPublic : Bool
  hasThumbnail : Bool
  hasOriginal : Bool
  exifDate : Except ExifError DateV
deriving DecidableEq, Repr

structure World where
  albums : List AlbumRec
  pictures : List PictureRec
deriving DecidableEq, Repr

def findAlbum (w : World) (id : Nat) : Option AlbumRec :=
  w.albums.find? (fun b => b.id == id)

def findPicture (w : World) (id : Nat) : Option PictureRec :=
  w.pictures.find? (fun p => p.id == id)

/-- Model of `self.subalbums` (children in tree order; sibling order is list order). -/
def subalbumsOf (w : World) (id : Nat) : List AlbumRec :=
  w.albums.filter (fun b => b.parent == some id)

/-- Model of `self.pictures` (in creation order, modelled as list order; the
`Picture` model itself is not under `src/`, its default ordering is
modelled from the spec: "by creation order"). -/
def picturesOf (w : World) (aId : Nat) : List PictureRec :=
  w.pictures.filter (fun p => p.albumId == aId)

/-- Model of `pth[1:] if pth.startswith('//')` — collapse the duplicate leading
separator. -/
def collapseLeading : Str → Str
  | a :: b :: rest => if a = '/' ∧ b = '/' then b :: rest else a :: b :: rest
  | p => p

/-- Model of `Album._make_path`: `'/'` when there is no parent, else
`self.parent.path + '/' + self.slug` with a duplicate leading `//`
collapsed. `parentPath = none` means the album has no parent. -/
def make_path (parentPath : Option Str) (slug : Str) : Str :=
  match parentPath with
  | none => ['/']
  | some pp => collapseLeading (pp ++ '/' :: slug)

/-- The parent's `path` as seen from an album record (`none` iff the album
has no parent; a dangling parent id yields the empty path and is excluded
by well-formedness hypotheses). -/
def parentPathOf (w : World) (a : AlbumRec) : Option Str :=
  a.parent.map (fun pid => ((findAlbum w pid).map (fun p => p.path)).getD [])

/-- Modelled from the spec: `slugify` from the utils module (not under
`src/`) turns a title into a path segment; no claim depends on its exact
output. -/
def slugify (title : Str) : Str :=
  title.map (fun c => if c.isAlphanum then c.toLower else '-')

/-- Whether a subalbum's cover picture exists and has a thumbnail medium —
the join `cover_picture__media__role='thumbnail'`. -/
def coverHasThumb (w : World) (s : AlbumRec) : Bool :=
  match s.coverPicture with
  | some pid => ((findPicture w pid).map (fun p => p.hasThumbnail)).getD false
  | none => false

/-- Model of `Album._select_cover_picture`: the cover of the first subalbum whose
cover picture has a thumbnail medium
(`subalbums.filter(cover_picture__media__role='thumbnail').first()`),
else the first own picture, else none. -/
def select_cover_picture (w : World) (aId : Nat) : Option Nat :=
  match (subalbumsOf w aId).find? (coverHasThumb w) with
  | some sub => sub.coverPicture
  | none => ((picturesOf w aId).head?).map (fun p => p.id)

/-- Written from the claim's words, for comparison with
`select_cover_picture`: the cover of the first child node that itself has
a cover image (whether or not that cover has a thumbnail medium), else the
first own picture, else none. -/
def claimed_cover_selection (w : World) (aId : Nat) : Option Nat :=
  match (subalbumsOf w aId).find? (fun s => s.coverPicture.isSome) with
  | some sub => sub.coverPicture
  | none => ((picturesOf w aId).head?).map (fun p => p.id)

/-- The EXIF step of `Album._guess_date` as executed during a save:
`self.cover_picture.original.get_exif_datetime().date()`.  A missing cover
picture raises `AttributeError` (caught); otherwise the picture's
(spec-modelled) metadata outcome decides. -/
def albumExif (w : World) (cover : Option Nat) : Except ExifError DateV :=
  match cover with
  | none => .error .attributeError
  | some pid =>
    match findPicture w pid with
    | none => .error .attributeError
    | some p => p.exifDate

/-- The slug an album ends up with after the slug-assignment step of
`Album.save`. -/
def newSlug (a : AlbumRec) : Str :=
  if a.title ≠ [] ∧ a.slug = [] then
    (if a.parent = none then "-root-album".data else slugify a.title)
  else a.slug

/-- The in-memory field updates of `Album.save` before the database write,
in source order: slug assignment (`newSlug`), path recomputation when the
slug is non-empty (recording `path_changed` against the path loaded from
the database), cover-picture selection when unset, then date guessing when
unset (using the possibly just-selected cover).  The parent link, title
and description are read but never written.  Returns the updated record
and `path_changed`. -/
def save_core (w : World) (a : AlbumRec) : AlbumRec × Bool :=
  let s := newSlug a
  let pth := if s ≠ [] then make_path (parentPathOf w a) s else a.path
  let path_changed := if s ≠ [] then decide (make_path (parentPathOf w a) s ≠ a.path) else false
  let cover := if a.coverPicture = none then select_cover_picture w a.id else a.coverPicture
  let date :=
    if a.date = none then guess_date (albumExif w cover) a.description a.title else a.date
  ({ a with slug := s, path := pth, coverPicture := cover, date := date }, path_changed)

/-- Write an album record back to the database row with its id. -/
def putAlbum (w : World) (a : AlbumRec) : World :=
  { w with albums := w.albums.map (fun b => if b.id = a.id then a else b) }

/-- Modelled from the spec: `Picture.save` (picture.py is not under
`src/`) derives the picture's `path` the same way as an album under its
parent: `album.path + '/' + slug`. -/
def picture_save (w : World) (p : PictureRec) : PictureRec :=
  match findAlbum w p.albumId with
  | some alb => { p with path := make_path (some alb.path) p.slug }
  | none => p

/-- Model of `for picture in self.pictures.all(): picture.save()` — re-save every
picture directly owned by the album (after the album's own row was
written). -/
def save_pictures (w : World) (aId : Nat) : World :=
  { w with pictures := w.pictures.map (fun p => if p.albumId = aId then picture_save w p else p) }

/-- One non-propagating save: the body of `Album.save` without the
`traverse` block.  Returns the new world and `path_changed`. -/
def saveOne (w : World) (aId : Nat) : World × Bool :=
  match findAlbum w aId with
  | none => (w, false)
  | some a =>
    let r := save_core w a
    (save_pictures (putAlbum w r.1) aId, r.2)

/-- Model of `Album.save(traverse=False)`. -/
def save_notraverse (w : World) (aId : Nat) : World :=
  (saveOne w aId).1

/-- Model of `self.get_ancestors()` (MPTT): the chain of ancestors, root first. -/
def ancestorIdsAux : Nat → World → Option Nat → List Nat
  | 0, _, _ => []
  | _, _, none => []
  | fuel + 1, w, some pid =>
    match findAlbum w pid with
    | none => [pid]
    | some p => pid :: ancestorIdsAux fuel w p.parent

def get_ancestors (w : World) (aId : Nat) : List Nat :=
  (match findAlbum w aId with
   | none => []
   | some a => ancestorIdsAux w.albums.length w a.parent).reverse

/-- Descendants in depth-first pre-order (MPTT tree order). -/
def descendantIdsAux : Nat → World → Nat → List Nat
  | 0, _, _ => []
  | fuel + 1, w, id =>
    (subalbumsOf w id).flatMap (fun c => c.id :: descendantIdsAux fuel w c.id)

def get_descendants (w : World) (aId : Nat) : List Nat :=
  descendantIdsAux w.albums.length w aId

/-- Model of `self.get_family()` (MPTT): ancestors, self and descendants in tree
order. -/
def get_family (w : World) (aId : Nat) : List Nat :=
  get_ancestors w aId ++ aId :: get_descendants w aId

/-- The members visited by `Album._update_family`: the family (or only the
ancestors when the path is unchanged) as fetched when the loop starts,
minus every album whose (fetched) `path` equals the saving album's new
`path`. -/
def propagation_targets (w1 : World) (aId : Nat) (selfPath : Str) (path_changed : Bool) :
    List Nat :=
  let familyIds := if path_changed then get_family w1 aId else get_ancestors w1 aId
  (((familyIds.filterMap (findAlbum w1)).filter (fun b => b.path ≠ selfPath)).map (fun b => b.id))

/-- Model of `Album.save` with its `traverse` keyword argument.  When `traverse` is
true, `_update_family` re-saves each propagation target with
`traverse=False` (`save_notraverse`); series resequencing touches only the
series pointers and is not modelled. -/
def album_save (traverse : Bool) (w : World) (aId : Nat) : World :=
  let r := saveOne w aId
  if traverse then
    match findAlbum r.1 aId with
    | none => r.1
    | some self =>
      (propagation_targets r.1 aId self.path r.2).foldl
        (fun wacc bId => save_notraverse wacc bId) r.1
  else r.1

/-! ## Auxiliary notions for the propagation proof -/

def pathOf (w : World) (b : Nat) : Str :=
  ((findAlbum w b).map (fun r => r.path)).getD []

def parentIdOf (w : World) (b : Nat) : Option Nat :=
  (findAlbum w b).bind (fun r => r.parent)

/-- Walks strict parent links: does some strict ancestor of `b`, reached
within `fuel` steps, equal `t`? -/
def chainReach (w : World) : Nat → Nat → Nat → Bool
  | 0, _, _ => false
  | f + 1, b, t =>
    match parentIdOf w b with
    | none => false
    | some p => p == t || chainReach w f p t

/-- The intended post-propagation path of every node, as a function of the
pre-save world: the saving node `aId` gets its new path `N`; every other
node's path is recomputed from its parent's intended path, which leaves
nodes outside the saving node's subtree at their original (consistent)
path. -/
def expPath (w : World) (N : Str) (aId : Nat) : Nat → Nat → Str
  | 0, b => pathOf w b
  | f + 1, b =>
    if b = aId then N
    else
      match findAlbum w b with
      | none => pathOf w b
      | some br =>
        match br.parent with
        | none => br.path
        | some pid => make_path (some (expPath w N aId f pid)) br.slug

/-- Well-ordering of a list of save targets: no target is the saving node
itself, and every target inside the saving node's subtree has its parent
among the previously allowed ids (the saving node or an earlier target). -/
def GoodSeq (w : World) (aId : Nat) (sub : Nat → Bool) : List Nat → List Nat → Prop
  | _, [] => True
  | allowed, d :: rest =>
    d ≠ aId ∧ (sub d = true → ∃ p, parentIdOf w d = some p ∧ p ∈ allowed) ∧
    GoodSeq w aId sub (d :: allowed) rest

/-- Album records that agree on everything determining tree structure and
traversal order (only `path`, `coverPicture` and `date` may differ). -/
def SkelEq (b b2 : AlbumRec) : Prop :=
  b2.id = b.id ∧ b2.parent = b.parent ∧ b2.slug = b.slug

def PicSkelEq (p p2 : PictureRec) : Prop :=
  p2.id = p.id ∧ p2.albumId = p.albumId ∧ p2.slug = p.slug

/-- Two worlds with the same skeleton: same album and picture lists up to
the mutable fields. -/
def Skel (w w2 : World) : Prop :=
  List.Forall₂ SkelEq w.albums w2.albums ∧ List.Forall₂ PicSkelEq w.pictures w2.pictures

/-- Well-formed absolute paths: the root path, or slash-headed without a
duplicated leading slash. -/
def GoodPath (p : Str) : Prop :=
  p = ['/'] ∨ ∃ c r, p = '/' :: c :: r ∧ c ≠ '/'

/-! ## Media records and the derivation engine (`media.py`) -/

/-- Model of `MediaSpec` (from `media_spec.py`, read-only to the engine): role,
target size, format, quality. -/
structure MediaSpecRec where
  id : Nat
  role : Str
  sizeW : Nat
  sizeH : Nat
  format : Str
  quality : Nat
deriving DecidableEq, Repr

structure MediaRec where
  id : Nat
  pictureId : Nat
  width : Nat
  height : Nat
  src : Str
  spec : Option Nat
  role : Str
  format : Str
deriving DecidableEq, Repr

/-- The format-specific encoder options `FORMAT_OPTIONS` of `media.py`:
`jpeg → optimize=True`, `webp → method=6`. -/
inductive FormatOption
  | optimize (b : Bool)
  | method (n : Nat)
deriving DecidableEq, Repr

def FORMAT_OPTIONS (format : Str) : List FormatOption :=
  if format = "jpeg".data then [.optimize true]
  else if format = "webp".data then [.method 6]
  else []

/-- File-system and codec side effects of the derivation engine, recorded
as an explicit trace. -/
inductive FileEffect
  | copyFile (src dst : Str)
  | moveFile (src dst : Str)
  | decodeImage (path : Str)
  | encodeImage (path : Str) (format : Str) (quality : Nat)
      (options : List FormatOption) (width height : Nat)
deriving DecidableEq, Repr

/-- Model of `settings.MEDIA_ROOT`, modelled as a fixed root. -/
def MEDIA_ROOT : Str := "/media".data

/-- Model of `Media.get_canonical_path`: originals under `pictures` with a `.jpeg`
suffix, derived media under `previews` with a `.role.format` suffix,
mirroring the owning picture's path. -/
def get_canonical_path (picPath : Str) (role : Str) (spec : Option MediaSpecRec)
    (pre : Str) : Str :=
  if role = "original".data then
    pre ++ "pictures".data ++ picPath ++ ".jpeg".data
  else
    match spec with
    | some sp => pre ++ "previews".data ++ picPath ++ '.' :: sp.role ++ '.' :: sp.format
    | none => pre ++ "previews".data ++ picPath

/-- Model of `Media.make_absolute_path_media_relative`: strip `MEDIA_ROOT` and a
leading slash. -/
def make_absolute_path_media_relative (p : Str) : Str :=
  match p.drop MEDIA_ROOT.length with
  | '/' :: r => r
  | r => r

inductive Mode
  | inplace
  | copy
  | move
deriving DecidableEq, Repr

/-- Model of `Media.process_file_location`: in-place keeps the input path (made
media-relative); copy/move place the file at the canonical original path
first. Returns the stored `src` and the file effects performed. -/
def process_file_location (canonical input : Str) : Mode → Str × List FileEffect
  | .inplace => (make_absolute_path_media_relative input, [])
  | .copy => (make_absolute_path_media_relative canonical, [.copyFile input canonical])
  | .move => (make_absolute_path_media_relative canonical, [.moveFile input canonical])

/-- Result of a get-or-create call: the returned record, the `created`
flag, the database afterwards and the trace of file effects performed. -/
structure GocResult where
  media : MediaRec
  created : Bool
  db : List MediaRec
  effects : List FileEffect
deriving DecidableEq, Repr

/-- Model of `Media.get_or_create_original_media`.  `nextId` is the id the
persistence layer would assign; `inputDims` is what decoding the stored
original yields (the codec is an external collaborator). -/
def get_or_create_original_media (db : List MediaRec) (pic : PictureRec) (input : Str)
    (mode : Mode) (nextId : Nat) (inputDims : Nat × Nat) : GocResult :=
  match db.find? (fun m => m.pictureId == pic.id && m.role == "original".data) with
  | some m => ⟨m, false, db, []⟩
  | none =>
    let canonical := get_canonical_path pic.path "original".data none (MEDIA_ROOT ++ ['/'])
    let pl := process_file_location canonical input mode
    let m : MediaRec :=
      { id := nextId, pictureId := pic.id, width := inputDims.1, height := inputDims.2,
        src := pl.1, spec := none, role := "original".data, format := "jpeg".data }
    ⟨m, true, db ++ [m], pl.2 ++ [.decodeImage pl.1]⟩

/-- Round to nearest (half away from zero) of `a / b`. -/
def roundHalf (a b : Nat) : Nat := (2 * a + b) / (2 * b)

/-- Modelled from the spec: the Image Codec's aspect-preserving
shrink-to-fit resize (`PIL.Image.thumbnail`, an external collaborator):
no change when the image already fits in the bounding box; otherwise scale
down so the binding dimension hits the bound and the free dimension is the
aspect-correct value rounded to the nearest integer, at least 1. -/
def thumbnailSize (w h maxW maxH : Nat) : Nat × Nat :=
  if w ≤ maxW ∧ h ≤ maxH then (w, h)
  else if maxH * w ≤ maxW * h then (max 1 (roundHalf (maxH * w) h), maxH)
  else (maxW, max 1 (roundHalf (maxW * h) w))

/-- Model of `Media.get_or_create_scaled_media`.  `origDims` is what decoding the
original's file yields.  Returns `none` when the `assert
original_media.role == 'original'` fails. -/
def get_or_create_scaled_media (db : List MediaRec) (original : MediaRec)
    (origPic : PictureRec) (sp : MediaSpecRec) (nextId : Nat) (origDims : Nat × Nat) :
    Option GocResult :=
  if original.role ≠ "original".data then none
  else
    match db.find? (fun m => m.pictureId == original.pictureId && m.spec == some sp.id) with
    | some m => some ⟨m, false, db, []⟩
    | none =>
      let canonical := get_canonical_path origPic.path sp.role (some sp) (MEDIA_ROOT ++ ['/'])
      let dims := thumbnailSize origDims.1 origDims.2 sp.sizeW sp.sizeH
      let m : MediaRec :=
        { id := nextId, pictureId := original.pictureId, width := dims.1, height := dims.2,
          src := get_canonical_path origPic.path sp.role (some sp) [],
          spec := some sp.id, role := sp.role, format := sp.format }
      some ⟨m, true, db ++ [m],
        [.decodeImage original.src,
         .encodeImage canonical sp.format sp.quality (FORMAT_OPTIONS sp.format) dims.1 dims.2]⟩

/-! ## Archive export (`Album.ensure_download` / `Album._ensure_download`) -/

inductive ZipEntry
  | readme (content : Str)
  | pictureEntry (name : Str)
deriving DecidableEq, Repr

/-- The download area of the file system: archive path → entries. -/
structure FS where
  archives : List (Str × List ZipEntry)
deriving DecidableEq, Repr

/-- Model of `Album.get_download_file_path`. -/
def get_download_file_path (albPath : Str) (pre : Str) : Str :=
  pre ++ "downloads".data ++ albPath ++ ".zip".data

/-- Model of `Album.is_download_ready`: the archive file exists at the canonical
export path. -/
def is_download_ready (fs : FS) (albPath : Str) : Bool :=
  (fs.archives.find?
    (fun e => e.1 == get_download_file_path albPath (MEDIA_ROOT ++ ['/']))).isSome

/-- Modelled from the spec: `readme_file_content` renders a text template
for the album; no claim depends on its exact text. -/
def readme_file_content (alb : AlbumRec) : Str :=
  "album: ".data ++ alb.title

/-- Model of `Album._ensure_download`: a no-op when the archive already exists;
otherwise writes a fresh archive holding `README.txt` and, for every
public picture that has an original medium, one entry named `slug + .jpg`
(pictures without an original are skipped with a logged warning). -/
def ensure_download_impl (fs : FS) (w : World) (alb : AlbumRec) : FS :=
  if is_download_ready fs alb.path then fs
  else
    let entries := ZipEntry.readme (readme_file_content alb) ::
      (((picturesOf w alb.id).filter (fun p => p.isPublic)).filterMap (fun p =>
        if p.hasOriginal then some (ZipEntry.pictureEntry (p.slug ++ ".jpg".data)) else none))
    { archives :=
        fs.archives ++ [(get_download_file_path alb.path (MEDIA_ROOT ++ ['/']), entries)] }

/-! ## Helper lemmas -/

theorem filterMap_if_eq_filter_map {α β : Type} (l : List α) (c : α → Bool) (f : α → β) :
    l.filterMap (fun x => if c x then some (f x) else none) = (l.filter c).map f := by
  induction l with
  | nil => rfl
  | cons x xs ih =>
    by_cases h : c x <;> simp [List.filterMap_cons, List.filter_cons, h, ih]

/-! ## Claims about date inference -/

/-- C5: text-based date inference scans `description` before `title`
against the pattern list with ISO before day-first; the first structurally
valid match wins; a syntactically matching but calendrically invalid date
is rejected and the next pattern is tried.  Concretely:
description `Event on 2023-04-05 was great` infers 2023-04-05;
description `14.3.2022 party` infers 2022-03-14; description
`no date here` with unreadable cover metadata leaves the date unset;
an invalid ISO match (day 32) falls through to the day-first pattern;
an ISO match in the title takes priority over a day-first match in the
description (patterns are the outer loop); with the same pattern, the
description is searched before the title. -/
theorem claim_C5 :
    guessTextDate "Event on 2023-04-05 was great".data [] = some ⟨2023, 4, 5⟩ ∧
    guessTextDate "14.3.2022 party".data [] = some ⟨2022, 3, 14⟩ ∧
    guess_date (.error .valueError) "no date here".data [] = none ∧
    guessTextDate "2023-04-32 or 14.3.2022".data [] = some ⟨2022, 3, 14⟩ ∧
    guessTextDate "14.3.2022".data "2020-01-01".data = some ⟨2020, 1, 1⟩ ∧
    guessTextDate "2023-01-02".data "2023-03-04".data = some ⟨2023, 1, 2⟩ := by
  decide

/-- C6: date inference never raises: every failure of the EXIF source
(any of the caught exception classes, including decoding errors and absent
metadata) leads to the text scan, and when no source yields a date the
result is `none` — the model's total `Option` return type reflects that
the Python function falls off the end rather than raising. -/
theorem claim_C6 (e : ExifError) (description title : Str) :
    guess_date (.error e) description title = guessTextDate description title ∧
    (guessTextDate description title = none → guess_date (.error e) description title = none) := by
  constructor
  · cases e <;> rfl
  · intro h; cases e <;> simpa [guess_date] using h

theorem claim_C6_witness :
    guess_date (.error .runtimeError) "no date here".data [] =
      guessTextDate "no date here".data [] ∧
    (guessTextDate "no date here".data [] = none →
      guess_date (.error .runtimeError) "no date here".data [] = none) :=
  claim_C6 .runtimeError "no date here".data []

/-- C10: in the day-first pattern the separator is a regex `.` and matches
any single (non-newline) character, not only a dot: when the cover
metadata yields no date and the description is `14 c₁ 3 c₂ 2022` for
arbitrary non-digit, non-newline separator characters, inference returns
2022-03-14 (e.g. description `14x3x2022`). -/
theorem claim_C10 (c₁ c₂ : Char) (e : ExifError)
    (h1 : c₁ ≠ '\n') (h2 : c₂ ≠ '\n') (h3 : ¬ c₁.isDigit) (h4 : ¬ c₂.isDigit) :
    guess_date (.error e) ['1', '4', c₁, '3', c₂, '2', '0', '2', '2'] [] =
      some ⟨2022, 3, 14⟩ := by
  have e1 : isDig c₁ = false := by simpa [isDig] using h3
  have e2 : isDig c₂ = false := by simpa [isDig] using h4
  have b1 : (c₁ == '\n') = false := by simpa using h1
  have b2 : (c₂ == '\n') = false := by simpa using h2
  cases e <;>
    simp +decide [guess_date, guessTextDate, GUESS_DATE_REGEXEN, guessFromRegexen,
      reSearch, matchISOAt, isoMonthDay, isoMonthDayOne, matchDayEnd,
      matchFinAt, matchFinAtOne, finAfterDay, finTail2, finTailOne, finAnyYear,
      e1, e2, b1, b2, bne]

theorem claim_C10_witness :
    ('x' ≠ '\n' ∧ ¬ 'x'.isDigit) ∧
    guess_date (.error .valueError) ['1', '4', 'x', '3', 'x', '2', '0', '2', '2'] [] =
      some ⟨2022, 3, 14⟩ :=
  ⟨by decide, claim_C10 'x' 'x' .valueError (by decide) (by decide) (by decide) (by decide)⟩

/-! ## Claims about the media derivation engine -/

/-- C4: `get_or_create_original_media` is idempotent per picture and
`get_or_create_scaled_media` is idempotent per (picture, spec): when a
matching media record exists, it is returned unchanged (`created = false`,
same record, database untouched) with no file effect (no re-encode, no
write); in particular a second call right after a creating call returns
exactly the created record. -/
theorem claim_C4
    (db sdb : List MediaRec) (pic origPic : PictureRec) (input input' : Str)
    (mode mode' : Mode) (nid nid' : Nat) (dims dims' : Nat × Nat)
    (original : MediaRec) (sp : MediaSpecRec)
    (h1 : db.find? (fun m => m.pictureId == pic.id && m.role == "original".data) = none)
    (h2 : sdb.find? (fun m => m.pictureId == original.pictureId && m.spec == some sp.id) = none)
    (h3 : original.role = "original".data) :
    -- an existing original is returned unchanged, with no effects
    (∀ m dbx, dbx.find? (fun m' => m'.pictureId == pic.id && m'.role == "original".data) = some m →
      get_or_create_original_media dbx pic input mode nid dims = ⟨m, false, dbx, []⟩) ∧
    -- an existing (picture, spec) derivative is returned unchanged, with no effects
    (∀ m dbx,
      dbx.find? (fun m' => m'.pictureId == original.pictureId && m'.spec == some sp.id) = some m →
      get_or_create_scaled_media dbx original origPic sp nid dims = some ⟨m, false, dbx, []⟩) ∧
    -- second call after a creating call: same record, nothing re-done
    (let r1 := get_or_create_original_media db pic input mode nid dims
     let r2 := get_or_create_original_media r1.db pic input' mode' nid' dims'
     r1.created = true ∧ r2.media = r1.media ∧ r2.created = false ∧
       r2.db = r1.db ∧ r2.effects = []) ∧
    (∀ r1, get_or_create_scaled_media sdb original origPic sp nid dims = some r1 →
     ∀ r2, get_or_create_scaled_media r1.db original origPic sp nid' dims' = some r2 →
     r1.created = true ∧ r2.media = r1.media ∧ r2.created = false ∧
       r2.db = r1.db ∧ r2.effects = []) := by
  have hro : ¬ original.role ≠ "original".data := by simp [h3]
  refine ⟨?_, ?_, ?_, ?_⟩
  · intro m dbx hm
    simp [get_or_create_original_media, hm]
  · intro m dbx hm
    simp [get_or_create_scaled_media, hro, hm]
  · simp [get_or_create_original_media, h1, List.find?_append]
  · intro r1 hr1 r2 hr2
    rw [get_or_create_scaled_media, if_neg hro, h2] at hr1
    obtain rfl : r1 = _ := by injection hr1 with h; exact h.symm
    rw [get_or_create_scaled_media, if_neg hro] at hr2
    rw [List.find?_append, h2] at hr2
    simp at hr2
    obtain rfl : r2 = _ := hr2.symm
    simp

theorem claim_C4_witness :
    let wpic : PictureRec :=
      { id := 7, albumId := 0, slug := ['p'], path := "/p".data, isPublic := true,
        hasThumbnail := false, hasOriginal := true,
        exifDate := Except.error ExifError.valueError }
    let original : MediaRec :=
      { id := 1, pictureId := 7, width := 400, height := 300,
        src := "pictures/p.jpeg".data, spec := none, role := "original".data,
        format := "jpeg".data }
    let sp : MediaSpecRec :=
      { id := 3, role := "thumbnail".data, sizeW := 240, sizeH := 240,
        format := "jpeg".data, quality := 60 }
    (∀ m dbx,
      dbx.find? (fun m' => m'.pictureId == wpic.id && m'.role == "original".data) = some m →
      get_or_create_original_media dbx wpic "in.jpg".data Mode.inplace 9 (400, 300) =
        ⟨m, false, dbx, []⟩) ∧
    (∀ m dbx,
      dbx.find? (fun m' => m'.pictureId == original.pictureId && m'.spec == some sp.id) =
        some m →
      get_or_create_scaled_media dbx original wpic sp 9 (400, 300) = some ⟨m, false, dbx, []⟩) ∧
    (let r1 := get_or_create_original_media [] wpic "in.jpg".data Mode.inplace 9 (400, 300)
     let r2 := get_or_create_original_media r1.db wpic "in2.jpg".data Mode.inplace 11 (400, 300)
     r1.created = true ∧ r2.media = r1.media ∧ r2.created = false ∧
       r2.db = r1.db ∧ r2.effects = []) ∧
    (∀ r1, get_or_create_scaled_media [] original wpic sp 9 (400, 300) = some r1 →
     ∀ r2, get_or_create_scaled_media r1.db original wpic sp 11 (400, 300) = some r2 →
     r1.created = true ∧ r2.media = r1.media ∧ r2.created = false ∧
       r2.db = r1.db ∧ r2.effects = []) := by
  intro wpic original sp
  exact claim_C4 [] [] wpic wpic "in.jpg".data "in2.jpg".data Mode.inplace Mode.inplace
    9 11 (400, 300) (400, 300) original sp (by decide) (by decide) (by decide)

/-! ## Claims about archive export -/

/-- C9: archive export is idempotent (an existing archive at the canonical
export path makes the export a no-op) and partial-input tolerant: the
produced archive holds the manifest plus exactly one `slug + .jpg` entry
per public picture that has an original medium; public pictures without an
original are skipped rather than failing the export. -/
theorem claim_C9 (fs : FS) (w : World) (alb : AlbumRec) :
    (is_download_ready fs alb.path = true → ensure_download_impl fs w alb = fs) ∧
    (is_download_ready fs alb.path = false →
      ensure_download_impl fs w alb =
        { archives := fs.archives ++
            [(get_download_file_path alb.path (MEDIA_ROOT ++ ['/']),
              ZipEntry.readme (readme_file_content alb) ::
              ((picturesOf w alb.id).filter (fun p => p.hasOriginal && p.isPublic)).map
                (fun p => ZipEntry.pictureEntry (p.slug ++ ".jpg".data)))] }) := by
  constructor
  · intro h
    simp [ensure_download_impl, h]
  · intro h
    simp only [ensure_download_impl, h, Bool.false_eq_true, if_false]
    rw [filterMap_if_eq_filter_map, List.filter_filter]

theorem claim_C9_witness :
    let alb : AlbumRec :=
      { id := 0, parent := none, slug := ['r'], path := ['/'], title := [],
        description := [], coverPicture := none, date := none }
    let pOk : PictureRec :=
      { id := 1, albumId := 0, slug := ['a'], path := "/a".data, isPublic := true,
        hasThumbnail := true, hasOriginal := true, exifDate := .error .valueError }
    let pNoOrig : PictureRec :=
      { id := 2, albumId := 0, slug := ['b'], path := "/b".data, isPublic := true,
        hasThumbnail := true, hasOriginal := false, exifDate := .error .valueError }
    let w : World := { albums := [alb], pictures := [pOk, pNoOrig] }
    ensure_download_impl ⟨[]⟩ w alb =
      { archives := [(get_download_file_path ['/'] (MEDIA_ROOT ++ ['/']),
          [ZipEntry.readme (readme_file_content alb),
           ZipEntry.pictureEntry ("a.jpg".data)])] } := by
  intro alb pOk pNoOrig w
  have h := (claim_C9 ⟨[]⟩ w alb).2 (by decide)
  rw [h]
  decide

/-! ## Tree lemmas -/

theorem findAlbum_props {w : World} {i : Nat} {a : AlbumRec} (h : findAlbum w i = some a) :
    a ∈ w.albums ∧ a.id = i :=
  ⟨List.mem_of_find?_eq_some h, by simpa using List.find?_some h⟩

theorem find?_put_other (l : List AlbumRec) (b : AlbumRec) (j : Nat) (hj : j ≠ b.id) :
    (l.map (fun r => if r.id = b.id then b else r)).find? (fun r => r.id == j) =
      l.find? (fun r => r.id == j) := by
  induction l with
  | nil => rfl
  | cons x xs ih =>
    by_cases hx : x.id = b.id
    · have h1 : (b.id == j) = false := by simp; omega
      have h2 : (x.id == j) = false := by simp [hx]; omega
      simp [List.find?_cons, hx, h1, h2, ih]
    · simp only [List.map_cons, if_neg hx, List.find?_cons]
      cases hxj : (x.id == j) <;> simp [ih]

theorem find?_put_self (l : List AlbumRec) (b : AlbumRec) (hex : ∃ a ∈ l, a.id = b.id) :
    (l.map (fun r => if r.id = b.id then b else r)).find? (fun r => r.id == b.id) = some b := by
  induction l with
  | nil => simp at hex
  | cons x xs ih =>
    by_cases hx : x.id = b.id
    · simp [List.find?_cons, hx]
    · simp only [List.map_cons, if_neg hx, List.find?_cons]
      have h2 : (x.id == b.id) = false := by simp [hx]
      simp only [h2]
      refine ih ?_
      rcases hex with ⟨a, ha, haid⟩
      rcases List.mem_cons.1 ha with rfl | ha'
      · exact absurd haid hx
      · exact ⟨a, ha', haid⟩

theorem findAlbum_save_pictures (w : World) (i j : Nat) :
    findAlbum (save_pictures w i) j = findAlbum w j := rfl

theorem findAlbum_putAlbum_other (w : World) (b : AlbumRec) (j : Nat) (hj : j ≠ b.id) :
    findAlbum (putAlbum w b) j = findAlbum w j :=
  find?_put_other w.albums b j hj

theorem findAlbum_putAlbum_self (w : World) (b : AlbumRec) (hex : ∃ a ∈ w.albums, a.id = b.id) :
    findAlbum (putAlbum w b) b.id = some b :=
  find?_put_self w.albums b hex

theorem slugify_ne_nil (t : Str) (h : t ≠ []) : slugify t ≠ [] := by
  simpa [slugify] using h

theorem newSlug_ne_nil (a : AlbumRec) (h : a.slug ≠ [] ∨ a.title ≠ []) : newSlug a ≠ [] := by
  unfold newSlug
  split_ifs with h1 h2
  · decide
  · exact slugify_ne_nil a.title h1.1
  · rcases h with hs | ht
    · exact hs
    · by_cases hs : a.slug = []
      · exact absurd ⟨ht, hs⟩ h1
      · exact hs

theorem save_core_spec (w : World) (a : AlbumRec) (h : a.slug ≠ [] ∨ a.title ≠ []) :
    (save_core w a).1.id = a.id ∧
    (save_core w a).1.parent = a.parent ∧
    (save_core w a).1.slug = newSlug a ∧
    (save_core w a).1.path = make_path (parentPathOf w a) (newSlug a) ∧
    (save_core w a).2 = decide (make_path (parentPathOf w a) (newSlug a) ≠ a.path) := by
  have hns := newSlug_ne_nil a h
  unfold save_core
  simp [hns]

theorem save_core_cover (w : World) (a : AlbumRec) :
    (∀ c, a.coverPicture = some c → (save_core w a).1.coverPicture = some c) ∧
    (a.coverPicture = none → (save_core w a).1.coverPicture = select_cover_picture w a.id) := by
  constructor
  · intro c hc
    unfold save_core
    simp [hc]
  · intro hc
    unfold save_core
    simp [hc]

theorem collapseLeading_dd (s : Str) : collapseLeading ('/' :: '/' :: s) = '/' :: s := by
  simp [collapseLeading]

theorem collapseLeading_nodup (c : Char) (hc : c ≠ '/') (s : Str) :
    collapseLeading ('/' :: c :: s) = '/' :: c :: s := by
  simp [collapseLeading, hc]

/-! ## Claims about path computation and propagation -/

/-- C1: after a save completes, the saved node's `path` is `/` when it has
no parent, and otherwise `parent.path + '/' + slug`, with the duplicate
leading separator collapsed exactly for nodes whose parent is the forest
root (path `/`); for a parent with a well-formed non-root path the
concatenation is kept as is. -/
theorem claim_C1 (w : World) (aId : Nat) (a : AlbumRec)
    (ha : findAlbum w aId = some a)
    (hst : a.slug ≠ [] ∨ a.title ≠ []) :
    ∃ a', findAlbum (save_notraverse w aId) aId = some a' ∧
      a'.parent = a.parent ∧ a'.slug = newSlug a ∧
      (a'.parent = none → a'.path = ['/']) ∧
      (∀ pid p, a'.parent = some pid → findAlbum w pid = some p →
        (p.path = ['/'] → a'.path = '/' :: a'.slug) ∧
        (∀ c r, p.path = '/' :: c :: r → c ≠ '/' → a'.path = p.path ++ '/' :: a'.slug)) := by
  obtain ⟨hmem, hid⟩ := findAlbum_props ha
  obtain ⟨hcid, hcparent, hcslug, hcpath, -⟩ := save_core_spec w a hst
  refine ⟨(save_core w a).1, ?_, hcparent, hcslug, ?_, ?_⟩
  · unfold save_notraverse saveOne
    rw [ha]
    show findAlbum (save_pictures _ _) _ = _
    rw [findAlbum_save_pictures]
    have := findAlbum_putAlbum_self w (save_core w a).1 ⟨a, hmem, by rw [hcid]⟩
    rwa [hcid, hid] at this
  · intro hpar
    rw [hcpath]
    have : parentPathOf w a = none := by
      rw [hcparent] at hpar
      simp [parentPathOf, hpar]
    rw [this]
    rfl
  · intro pid p hpar hp
    rw [hcparent] at hpar
    have hpp : parentPathOf w a = some p.path := by
      simp [parentPathOf, hpar, hp]
    constructor
    · intro hroot
      rw [hcpath, hpp, hcslug, hroot]
      show collapseLeading ('/' :: '/' :: newSlug a) = _
      exact collapseLeading_dd _
    · intro c r hform hc
      rw [hcpath, hpp, hcslug, hform]
      show collapseLeading ('/' :: c :: (r ++ '/' :: newSlug a)) = _
      rw [collapseLeading_nodup c hc]
      simp

theorem claim_C1_witness :
    let root : AlbumRec :=
      { id := 0, parent := none, slug := ['r'], path := ['/'], title := [],
        description := [], coverPicture := none, date := none }
    let child : AlbumRec :=
      { id := 1, parent := some 0, slug := ['c'], path := [], title := [],
        description := [], coverPicture := none, date := none }
    let w : World := { albums := [root, child], pictures := [] }
    (['c'] ≠ ([] : Str) ∨ ([] : Str) ≠ []) ∧
    ∃ a', findAlbum (save_notraverse w 1) 1 = some a' ∧
      a'.parent = some 0 ∧ a'.slug = newSlug child ∧
      (a'.parent = none → a'.path = ['/']) ∧
      (∀ pid p, a'.parent = some pid → findAlbum w pid = some p →
        (p.path = ['/'] → a'.path = '/' :: a'.slug) ∧
        (∀ c r, p.path = '/' :: c :: r → c ≠ '/' → a'.path = p.path ++ '/' :: a'.slug)) := by
  intro root child w
  exact ⟨Or.inl (by decide), claim_C1 w 1 child (by decide) (Or.inl (by decide))⟩

/-- C2: propagation is exactly one level of fan-out.  A triggering save
folds the plain non-propagating save over its propagation targets; a
non-propagating save (`traverse=False`) performs no propagation — it
leaves every album row other than its own untouched, so the nested saves
cannot fan out further (and the model's totality witnesses termination);
and any family member whose fetched path already equals the saving node's
new path is skipped. -/
theorem claim_C2 (w : World) (aId : Nat) (self : AlbumRec)
    (hself : findAlbum (saveOne w aId).1 aId = some self) :
    album_save true w aId =
      (propagation_targets (saveOne w aId).1 aId self.path (saveOne w aId).2).foldl
        (fun wacc bId => album_save false wacc bId) (saveOne w aId).1 ∧
    (∀ w' bId j, j ≠ bId → findAlbum (album_save false w' bId) j = findAlbum w' j) ∧
    (∀ bId b, findAlbum (saveOne w aId).1 bId = some b → b.path = self.path →
      bId ∉ propagation_targets (saveOne w aId).1 aId self.path (saveOne w aId).2) := by
  have hfalse : ∀ w' bId, album_save false w' bId = save_notraverse w' bId := fun _ _ => rfl
  refine ⟨?_, ?_, ?_⟩
  · conv_lhs => rw [album_save]
    rw [hself]
    rfl
  · intro w' bId j hj
    rw [hfalse]
    unfold save_notraverse saveOne
    cases hb : findAlbum w' bId with
    | none => rfl
    | some b =>
      obtain ⟨hmem, hid⟩ := findAlbum_props hb
      show findAlbum (save_pictures _ _) _ = _
      rw [findAlbum_save_pictures]
      have hcid : (save_core w' b).1.id = b.id := rfl
      refine findAlbum_putAlbum_other w' (save_core w' b).1 j ?_
      rw [hcid, hid]
      exact hj
  · intro bId b hb hpath hmem
    unfold propagation_targets at hmem
    simp only [List.mem_map, List.mem_filter, List.mem_filterMap] at hmem
    obtain ⟨r, ⟨⟨fid, hfid, hr⟩, hrpath⟩, hrid⟩ := hmem
    have : r.id = fid := (findAlbum_props hr).2
    rw [this] at hrid
    subst hrid
    rw [hr] at hb
    obtain rfl : r = b := by injection hb
    simp [hpath] at hrpath

theorem claim_C2_witness :
    let root : AlbumRec :=
      { id := 0, parent := none, slug := ['r'], path := ['/'], title := [],
        description := [], coverPicture := none, date := none }
    let child : AlbumRec :=
      { id := 1, parent := some 0, slug := ['c'], path := "/c".data, title := [],
        description := [], coverPicture := none, date := none }
    let w : World := { albums := [root, child], pictures := [] }
    album_save true w 1 =
      (propagation_targets (saveOne w 1).1 1 child.path (saveOne w 1).2).foldl
        (fun wacc bId => album_save false wacc bId) (saveOne w 1).1 ∧
    (∀ w' bId j, j ≠ bId → findAlbum (album_save false w' bId) j = findAlbum w' j) ∧
    (∀ bId b, findAlbum (saveOne w 1).1 bId = some b → b.path = child.path →
      bId ∉ propagation_targets (saveOne w 1).1 1 child.path (saveOne w 1).2) := by
  intro root child w
  exact claim_C2 w 1 child (by decide)

/-- C7 counterexample: the claim says cover selection picks the cover of
the first child node (by tree order) that has one, but the code filters
children by `cover_picture__media__role='thumbnail'`: with a first child
whose cover picture has no thumbnail medium and a second child whose cover
does, the save selects the second child's cover (picture 11), not the
first's (picture 10). -/
theorem claim_C7_counterexample :
    let pNoThumb : PictureRec :=
      { id := 10, albumId := 1, slug := ['p'], path := "/b/p".data, isPublic := true,
        hasThumbnail := false, hasOriginal := true, exifDate := .error .valueError }
    let pThumb : PictureRec :=
      { id := 11, albumId := 2, slug := ['q'], path := "/c/q".data, isPublic := true,
        hasThumbnail := true, hasOriginal := true, exifDate := .error .valueError }
    let root : AlbumRec :=
      { id := 0, parent := none, slug := ['r'], path := ['/'], title := [],
        description := [], coverPicture := none, date := none }
    let childB : AlbumRec :=
      { id := 1, parent := some 0, slug := ['b'], path := "/b".data, title := [],
        description := [], coverPicture := some 10, date := none }
    let childC : AlbumRec :=
      { id := 2, parent := some 0, slug := ['c'], path := "/c".data, title := [],
        description := [], coverPicture := some 11, date := none }
    let w : World := { albums := [root, childB, childC], pictures := [pNoThumb, pThumb] }
    claimed_cover_selection w 0 = some 10 ∧
    select_cover_picture w 0 = some 11 ∧
    (findAlbum (save_notraverse w 0) 0).map (fun r => r.coverPicture) = some (some 11) := by
  decide

/-- C7 amended: on save, cover selection runs only when `coverImage` is
unset and never replaces a set cover; it selects the cover of the first
child node (by tree order) whose cover picture has a thumbnail medium
(not merely the first child with any cover), else the first directly owned
picture (creation order), else leaves the cover unset. -/
theorem claim_C7_amended (w : World) (aId : Nat) (a : AlbumRec)
    (ha : findAlbum w aId = some a) :
    ∃ a', findAlbum (save_notraverse w aId) aId = some a' ∧
      (∀ c, a.coverPicture = some c → a'.coverPicture = some c) ∧
      (a.coverPicture = none → a'.coverPicture = select_cover_picture w aId) ∧
      (∀ sub, (subalbumsOf w aId).find? (coverHasThumb w) = some sub →
        select_cover_picture w aId = sub.coverPicture) ∧
      ((∀ s ∈ subalbumsOf w aId, ¬ coverHasThumb w s) →
        select_cover_picture w aId =
          ((picturesOf w aId).head?).map (fun p => p.id)) := by
  obtain ⟨hmem, hid⟩ := findAlbum_props ha
  obtain ⟨hkeep, hsel⟩ := save_core_cover w a
  refine ⟨(save_core w a).1, ?_, hkeep, ?_, ?_, ?_⟩
  · unfold save_notraverse saveOne
    rw [ha]
    show findAlbum (save_pictures _ _) _ = _
    rw [findAlbum_save_pictures]
    have hcid : (save_core w a).1.id = a.id := rfl
    have := findAlbum_putAlbum_self w (save_core w a).1 ⟨a, hmem, by rw [hcid]⟩
    rwa [hcid, hid] at this
  · intro hc
    rw [hsel hc, hid]
  · intro sub hsub
    unfold select_cover_picture
    rw [hsub]
  · intro hall
    unfold select_cover_picture
    rw [List.find?_eq_none.2 (by simpa using hall)]

theorem claim_C7_amended_witness :
    let pic : PictureRec :=
      { id := 5, albumId := 0, slug := ['p'], path := "/p".data, isPublic := true,
        hasThumbnail := true, hasOriginal := true, exifDate := .error .valueError }
    let root : AlbumRec :=
      { id := 0, parent := none, slug := ['r'], path := ['/'], title := [],
        description := [], coverPicture := none, date := none }
    let w : World := { albums := [root], pictures := [pic] }
    ∃ a', findAlbum (save_notraverse w 0) 0 = some a' ∧
      (∀ c, root.coverPicture = some c → a'.coverPicture = some c) ∧
      (root.coverPicture = none → a'.coverPicture = select_cover_picture w 0) ∧
      (∀ sub, (subalbumsOf w 0).find? (coverHasThumb w) = some sub →
        select_cover_picture w 0 = sub.coverPicture) ∧
      ((∀ s ∈ subalbumsOf w 0, ¬ coverHasThumb w s) →
        select_cover_picture w 0 = ((picturesOf w 0).head?).map (fun p => p.id)) := by
  intro pic root w
  exact claim_C7_amended w 0 root (by decide)

/-! ## Claims about derived-artifact generation -/

theorem roundHalf_le_of_le (t b c : Nat) (hb : 1 ≤ b) (ht : t ≤ c * b) :
    roundHalf t b ≤ c := by
  unfold roundHalf
  have h2b : 0 < 2 * b := by omega
  have hlt : 2 * t + b < (c + 1) * (2 * b) := by nlinarith
  exact Nat.lt_succ_iff.mp ((Nat.div_lt_iff_lt_mul h2b).mpr hlt)

theorem roundHalf_mul_bounds (t b : Nat) (hb : 1 ≤ b) :
    (roundHalf t b) * b ≤ t + b ∧ t ≤ (roundHalf t b) * b + b := by
  unfold roundHalf
  have h1 : ((2 * t + b) / (2 * b)) * (2 * b) ≤ 2 * t + b := Nat.div_mul_le_self _ _
  have h2 : 2 * t + b < ((2 * t + b) / (2 * b) + 1) * (2 * b) :=
    (Nat.div_lt_iff_lt_mul (by omega)).mp (Nat.lt_succ_self _)
  constructor <;> nlinarith

theorem max_one_mul_bounds (r b t : Nat) (hb : 1 ≤ b)
    (h1 : r * b ≤ t + b) (h2 : t ≤ r * b + b) :
    (max 1 r) * b ≤ t + b ∧ t ≤ (max 1 r) * b + b := by
  rcases Nat.eq_zero_or_pos r with hr | hr
  · subst hr
    rw [Nat.zero_mul] at h1 h2
    have hm : max 1 0 = 1 := rfl
    rw [hm, Nat.one_mul]
    constructor <;> omega
  · rw [Nat.max_eq_right hr]
    exact ⟨h1, h2⟩

/-- Bounds of the shrink-to-fit resize: the result fits in the bounding
box, never exceeds the original's dimensions, and preserves the aspect
ratio up to the rounding slack `max w h` in cross-products. -/
theorem thumbnailSize_spec (w h mw mh : Nat)
    (hw : 1 ≤ w) (hh : 1 ≤ h) (hmw : 1 ≤ mw) (hmh : 1 ≤ mh) :
    (thumbnailSize w h mw mh).1 ≤ mw ∧ (thumbnailSize w h mw mh).2 ≤ mh ∧
    (thumbnailSize w h mw mh).1 ≤ w ∧ (thumbnailSize w h mw mh).2 ≤ h ∧
    (thumbnailSize w h mw mh).1 * h ≤ (thumbnailSize w h mw mh).2 * w + max w h ∧
    (thumbnailSize w h mw mh).2 * w ≤ (thumbnailSize w h mw mh).1 * h + max w h := by
  unfold thumbnailSize
  split_ifs with hfit hbr <;> dsimp only
  · obtain ⟨h1, h2⟩ := hfit
    refine ⟨h1, h2, le_refl _, le_refl _, ?_, ?_⟩ <;> simp [Nat.mul_comm]
  · -- height-bound branch: result (max 1 (roundHalf (mh * w) h), mh)
    have hmhh : mh ≤ h := by
      by_contra hcon
      push_neg at hcon
      have hwlt : w ≤ mw := by nlinarith
      exact hfit ⟨hwlt, by omega⟩
    obtain ⟨hb1, hb2⟩ := roundHalf_mul_bounds (mh * w) h hh
    obtain ⟨hc1, hc2⟩ := max_one_mul_bounds (roundHalf (mh * w) h) h (mh * w) hh hb1 hb2
    have hmax : h ≤ max w h := Nat.le_max_right w h
    refine ⟨?_, le_refl _, ?_, hmhh, ?_, ?_⟩
    · exact max_le hmw (roundHalf_le_of_le _ _ _ hh hbr)
    · refine max_le hw (roundHalf_le_of_le _ _ _ hh ?_)
      calc mh * w ≤ h * w := Nat.mul_le_mul_right w hmhh
        _ = w * h := Nat.mul_comm h w
    · omega
    · omega
  · -- width-bound branch: result (mw, max 1 (roundHalf (mw * h) w))
    push_neg at hbr
    have hmww : mw ≤ w := by
      by_contra hcon
      push_neg at hcon
      have hhlt : h ≤ mh := by nlinarith
      exact hfit ⟨by omega, hhlt⟩
    obtain ⟨hb1, hb2⟩ := roundHalf_mul_bounds (mw * h) w hw
    obtain ⟨hc1, hc2⟩ := max_one_mul_bounds (roundHalf (mw * h) w) w (mw * h) hw hb1 hb2
    have hmax : w ≤ max w h := Nat.le_max_left w h
    refine ⟨le_refl _, ?_, hmww, ?_, ?_, ?_⟩
    · refine max_le hmh (roundHalf_le_of_le _ _ _ hw ?_)
      omega
    · refine max_le hh (roundHalf_le_of_le _ _ _ hw ?_)
      calc mw * h ≤ w * h := Nat.mul_le_mul_right h hmww
        _ = h * w := Nat.mul_comm w h
    · omega
    · omega

/-- C8: when `get_or_create_scaled_media` creates an artifact, the result
fits within `spec.size` preserving the original's aspect ratio (up to
integer rounding) and is never upscaled beyond the original's dimensions;
the width/height recorded on the media equal the resized image's
dimensions, and encoding uses `spec.format`, `spec.quality` and the
format-specific options. -/
theorem claim_C8 (db : List MediaRec) (original : MediaRec) (origPic : PictureRec)
    (sp : MediaSpecRec) (nid : Nat) (origW origH : Nat)
    (hnew : db.find? (fun m => m.pictureId == original.pictureId && m.spec == some sp.id) = none)
    (hrole : original.role = "original".data)
    (hw : 1 ≤ origW) (hh : 1 ≤ origH) (hmw : 1 ≤ sp.sizeW) (hmh : 1 ≤ sp.sizeH) :
    ∃ r, get_or_create_scaled_media db original origPic sp nid (origW, origH) = some r ∧
      r.created = true ∧
      r.media.width = (thumbnailSize origW origH sp.sizeW sp.sizeH).1 ∧
      r.media.height = (thumbnailSize origW origH sp.sizeW sp.sizeH).2 ∧
      r.media.width ≤ sp.sizeW ∧ r.media.height ≤ sp.sizeH ∧
      r.media.width ≤ origW ∧ r.media.height ≤ origH ∧
      r.media.width * origH ≤ r.media.height * origW + max origW origH ∧
      r.media.height * origW ≤ r.media.width * origH + max origW origH ∧
      r.media.format = sp.format ∧ r.media.role = sp.role ∧ r.media.spec = some sp.id ∧
      r.effects = [.decodeImage original.src,
        .encodeImage (get_canonical_path origPic.path sp.role (some sp) (MEDIA_ROOT ++ ['/']))
          sp.format sp.quality (FORMAT_OPTIONS sp.format)
          (thumbnailSize origW origH sp.sizeW sp.sizeH).1
          (thumbnailSize origW origH sp.sizeW sp.sizeH).2] := by
  have hro : ¬ original.role ≠ "original".data := by simp [hrole]
  obtain ⟨b1, b2, b3, b4, b5, b6⟩ :=
    thumbnailSize_spec origW origH sp.sizeW sp.sizeH hw hh hmw hmh
  have heq : get_or_create_scaled_media db original origPic sp nid (origW, origH) =
      some ⟨{ id := nid, pictureId := original.pictureId,
              width := (thumbnailSize origW origH sp.sizeW sp.sizeH).1,
              height := (thumbnailSize origW origH sp.sizeW sp.sizeH).2,
              src := get_canonical_path origPic.path sp.role (some sp) [],
              spec := some sp.id, role := sp.role, format := sp.format },
            true,
            db ++ [{ id := nid, pictureId := original.pictureId,
                     width := (thumbnailSize origW origH sp.sizeW sp.sizeH).1,
                     height := (thumbnailSize origW origH sp.sizeW sp.sizeH).2,
                     src := get_canonical_path origPic.path sp.role (some sp) [],
                     spec := some sp.id, role := sp.role, format := sp.format }],
            [.decodeImage original.src,
             .encodeImage (get_canonical_path origPic.path sp.role (some sp) (MEDIA_ROOT ++ ['/']))
               sp.format sp.quality (FORMAT_OPTIONS sp.format)
               (thumbnailSize origW origH sp.sizeW sp.sizeH).1
               (thumbnailSize origW origH sp.sizeW sp.sizeH).2]⟩ := by
    rw [get_or_create_scaled_media, if_neg hro, hnew]
  exact ⟨_, heq, rfl, rfl, rfl, b1, b2, b3, b4, b5, b6, rfl, rfl, rfl, rfl⟩

theorem claim_C8_witness :
    let original : MediaRec :=
      { id := 1, pictureId := 7, width := 400, height := 300,
        src := "pictures/p.jpeg".data, spec := none, role := "original".data,
        format := "jpeg".data }
    let origPic : PictureRec :=
      { id := 7, albumId := 0, slug := ['p'], path := "/p".data, isPublic := true,
        hasThumbnail := false, hasOriginal := true, exifDate := .error .valueError }
    let sp : MediaSpecRec :=
      { id := 3, role := "thumbnail".data, sizeW := 240, sizeH := 240,
        format := "jpeg".data, quality := 60 }
    ∃ r, get_or_create_scaled_media [] original origPic sp 2 (400, 300) = some r ∧
      r.created = true ∧
      r.media.width = (thumbnailSize 400 300 240 240).1 ∧
      r.media.height = (thumbnailSize 400 300 240 240).2 ∧
      r.media.width ≤ 240 ∧ r.media.height ≤ 240 ∧
      r.media.width ≤ 400 ∧ r.media.height ≤ 300 ∧
      r.media.width * 300 ≤ r.media.height * 400 + max 400 300 ∧
      r.media.height * 400 ≤ r.media.width * 300 + max 400 300 ∧
      r.media.format = sp.format ∧ r.media.role = sp.role ∧ r.media.spec = some 3 ∧
      r.effects = [.decodeImage original.src,
        .encodeImage (get_canonical_path origPic.path sp.role (some sp) (MEDIA_ROOT ++ ['/']))
          sp.format sp.quality (FORMAT_OPTIONS sp.format)
          (thumbnailSize 400 300 240 240).1 (thumbnailSize 400 300 240 240).2] := by
  intro original origPic sp
  exact claim_C8 [] original origPic sp 2 400 300 (by decide) (by decide)
    (by decide) (by decide) (by decide) (by decide)

/-! ## Skeleton lemmas for the propagation proof -/

theorem skel_refl (w : World) : Skel w w :=
  ⟨List.forall₂_same.2 (fun _ _ => ⟨rfl, rfl, rfl⟩),
   List.forall₂_same.2 (fun _ _ => ⟨rfl, rfl, rfl⟩)⟩

theorem forall₂_trans {α : Type} {R : α → α → Prop}
    (hR : ∀ a b c, R a b → R b c → R a c) :
    ∀ {l1 l2 l3 : List α}, List.Forall₂ R l1 l2 → List.Forall₂ R l2 l3 →
      List.Forall₂ R l1 l3 := by
  intro l1 l2 l3 h12 h23
  induction h12 generalizing l3 with
  | nil => cases h23; exact List.Forall₂.nil
  | cons hab htail ih =>
    cases h23 with
    | cons hbc htail2 => exact List.Forall₂.cons (hR _ _ _ hab hbc) (ih htail2)

theorem skel_trans {w w2 w3 : World} (h1 : Skel w w2) (h2 : Skel w2 w3) : Skel w w3 :=
  ⟨forall₂_trans (fun _ _ _ hab hbc =>
      ⟨hbc.1.trans hab.1, hbc.2.1.trans hab.2.1, hbc.2.2.trans hab.2.2⟩) h1.1 h2.1,
   forall₂_trans (fun _ _ _ hab hbc =>
      ⟨hbc.1.trans hab.1, hbc.2.1.trans hab.2.1, hbc.2.2.trans hab.2.2⟩) h1.2 h2.2⟩

theorem find?_skel {l l2 : List AlbumRec} (h : List.Forall₂ SkelEq l l2) (j : Nat) :
    (l.find? (fun r => r.id == j) = none ∧ l2.find? (fun r => r.id == j) = none) ∨
    (∃ b b2, l.find? (fun r => r.id == j) = some b ∧
      l2.find? (fun r => r.id == j) = some b2 ∧ SkelEq b b2) := by
  induction h with
  | nil => exact Or.inl ⟨rfl, rfl⟩
  | @cons a b l1 l2 hab htail ih =>
    have hid : (b.id == j) = (a.id == j) := by rw [hab.1]
    by_cases hj : a.id = j
    · right
      exact ⟨a, b, by simp [List.find?_cons, hj], by simp [List.find?_cons, hid, hj], hab⟩
    · have h1 : (a.id == j) = false := by simp [hj]
      simpa [List.find?_cons, h1, hid] using ih

theorem skel_findAlbum_none {w w2 : World} (h : Skel w w2) (j : Nat) :
    findAlbum w j = none ↔ findAlbum w2 j = none := by
  rcases find?_skel h.1 j with ⟨h1, h2⟩ | ⟨b, b2, h1, h2, _⟩
  · exact ⟨fun _ => h2, fun _ => h1⟩
  · constructor <;> intro hc <;> unfold findAlbum at hc
    · rw [h1] at hc; cases hc
    · rw [h2] at hc; cases hc

theorem skel_parentIdOf {w w2 : World} (h : Skel w w2) (j : Nat) :
    parentIdOf w2 j = parentIdOf w j := by
  unfold parentIdOf findAlbum
  rcases find?_skel h.1 j with ⟨h1, h2⟩ | ⟨b, b2, h1, h2, hsk⟩
  · rw [h1, h2]
  · rw [h1, h2]
    simp [hsk.2.1]

theorem skel_chainReach {w w2 : World} (h : Skel w w2) :
    ∀ (f b t : Nat), chainReach w2 f b t = chainReach w f b t := by
  intro f
  induction f with
  | zero => intro b t; rfl
  | succ f ih =>
    intro b t
    unfold chainReach
    rw [skel_parentIdOf h]
    cases parentIdOf w b with
    | none => rfl
    | some p =>
      dsimp only
      rw [ih]

theorem filter_skel {l l2 : List AlbumRec} (h : List.Forall₂ SkelEq l l2)
    (p q : AlbumRec → Bool) (hpq : ∀ a b, SkelEq a b → p a = q b) :
    List.Forall₂ SkelEq (l.filter p) (l2.filter q) := by
  induction h with
  | nil => exact List.Forall₂.nil
  | @cons a b l1 l2 hab htail ih =>
    rw [List.filter_cons, List.filter_cons, ← hpq a b hab]
    by_cases hp : p a <;> simp [hp, List.forall₂_cons, hab, ih]

theorem skel_subalbums {w w2 : World} (h : Skel w w2) (r : Nat) :
    List.Forall₂ SkelEq (subalbumsOf w r) (subalbumsOf w2 r) :=
  filter_skel h.1 _ _ (fun a b hab => by simp [hab.2.1])

theorem flatMap_skel {l l2 : List AlbumRec} (h : List.Forall₂ SkelEq l l2)
    (f g : AlbumRec → List Nat) (hfg : ∀ a b, SkelEq a b → f a = g b) :
    l.flatMap f = l2.flatMap g := by
  induction h with
  | nil => rfl
  | @cons a b l1 l2 hab htail ih =>
    rw [List.flatMap_cons, List.flatMap_cons, hfg a b hab, ih]

theorem skel_descendantIdsAux {w w2 : World} (h : Skel w w2) :
    ∀ (f r : Nat), descendantIdsAux f w2 r = descendantIdsAux f w r := by
  intro f
  induction f with
  | zero => intro r; rfl
  | succ f ih =>
    intro r
    unfold descendantIdsAux
    exact (flatMap_skel (skel_subalbums h r) _ _
      (fun a b hab => by rw [hab.1, ih])).symm

theorem skel_albums_length {w w2 : World} (h : Skel w w2) :
    w2.albums.length = w.albums.length :=
  h.1.length_eq.symm

theorem skel_get_descendants {w w2 : World} (h : Skel w w2) (r : Nat) :
    get_descendants w2 r = get_descendants w r := by
  unfold get_descendants
  rw [skel_albums_length h, skel_descendantIdsAux h]

theorem skel_ancestorIdsAux {w w2 : World} (h : Skel w w2) :
    ∀ (f : Nat) (op : Option Nat), ancestorIdsAux f w2 op = ancestorIdsAux f w op := by
  intro f
  induction f with
  | zero => intro op; cases op <;> rfl
  | succ f ih =>
    intro op
    cases op with
    | none => rfl
    | some pid =>
      unfold ancestorIdsAux findAlbum
      rcases find?_skel h.1 pid with ⟨h1, h2⟩ | ⟨b, b2, h1, h2, hsk⟩
      · rw [h1, h2]
      · rw [h1, h2]
        dsimp only
        rw [hsk.2.1, ih]

theorem skel_get_ancestors {w w2 : World} (h : Skel w w2) (r : Nat) :
    get_ancestors w2 r = get_ancestors w r := by
  unfold get_ancestors findAlbum
  rcases find?_skel h.1 r with ⟨h1, h2⟩ | ⟨b, b2, h1, h2, hsk⟩
  · rw [h1, h2]
  · rw [h1, h2]
    dsimp only
    rw [hsk.2.1, skel_albums_length h, skel_ancestorIdsAux h]

theorem forall₂_ids_eq {l l2 : List AlbumRec} (h : List.Forall₂ SkelEq l l2) :
    l2.map (fun b => b.id) = l.map (fun b => b.id) := by
  induction h with
  | nil => rfl
  | cons hab _ ih => simp [hab.1, ih]

theorem skel_ids_eq {w w2 : World} (h : Skel w w2) :
    w2.albums.map (fun b => b.id) = w.albums.map (fun b => b.id) :=
  forall₂_ids_eq h.1

theorem skel_nodup {w w2 : World} (h : Skel w w2)
    (hnd : (w.albums.map (fun b => b.id)).Nodup) :
    (w2.albums.map (fun b => b.id)).Nodup := by
  rwa [skel_ids_eq h]

theorem forall₂_mem_right {α β : Type} {R : α → β → Prop} :
    ∀ {l : List α} {l2 : List β}, List.Forall₂ R l l2 → ∀ b ∈ l2, ∃ a ∈ l, R a b := by
  intro l l2 h
  induction h with
  | nil => intro b hb; cases hb
  | @cons a b l1 l2 hab _ ih =>
    intro c hc
    rcases List.mem_cons.1 hc with rfl | hc'
    · exact ⟨a, List.mem_cons_self _ _, hab⟩
    · obtain ⟨a', ha', hr⟩ := ih c hc'
      exact ⟨a', List.mem_cons_of_mem _ ha', hr⟩

theorem skel_slugs {w w2 : World} (h : Skel w w2)
    (hs : ∀ b ∈ w.albums, b.slug ≠ [] ∧ '/' ∉ b.slug) :
    ∀ b ∈ w2.albums, b.slug ≠ [] ∧ '/' ∉ b.slug := by
  intro b2 hb2
  obtain ⟨b, hb, hsk⟩ := forall₂_mem_right h.1 b2 hb2
  rw [hsk.2.2]
  exact hs b hb

theorem newSlug_of_ne (a : AlbumRec) (h : a.slug ≠ []) : newSlug a = a.slug := by
  unfold newSlug
  simp [h]

theorem save_notraverse_other (w2 : World) (bId j : Nat) (hj : j ≠ bId) :
    findAlbum (save_notraverse w2 bId) j = findAlbum w2 j := by
  unfold save_notraverse saveOne
  cases hb : findAlbum w2 bId with
  | none => rfl
  | some b =>
    obtain ⟨hmem, hid⟩ := findAlbum_props hb
    dsimp only
    rw [findAlbum_save_pictures]
    refine findAlbum_putAlbum_other w2 (save_core w2 b).1 j ?_
    have hcid : (save_core w2 b).1.id = b.id := rfl
    rw [hcid, hid]
    exact hj

theorem save_notraverse_found (w2 : World) (bId : Nat) (b : AlbumRec)
    (hb : findAlbum w2 bId = some b) :
    findAlbum (save_notraverse w2 bId) bId = some (save_core w2 b).1 := by
  obtain ⟨hmem, hid⟩ := findAlbum_props hb
  unfold save_notraverse saveOne
  rw [hb]
  dsimp only
  rw [findAlbum_save_pictures]
  have hcid : (save_core w2 b).1.id = b.id := rfl
  have := findAlbum_putAlbum_self w2 (save_core w2 b).1 ⟨b, hmem, by rw [hcid]⟩
  rwa [hcid, hid] at this

theorem save_core_fields (w2 : World) (b : AlbumRec) (hbs : b.slug ≠ []) :
    (save_core w2 b).1.path = make_path (parentPathOf w2 b) b.slug ∧
    (save_core w2 b).1.id = b.id ∧ (save_core w2 b).1.parent = b.parent ∧
    (save_core w2 b).1.slug = b.slug := by
  obtain ⟨c1, c2, c3, c4, c5⟩ := save_core_spec w2 b (Or.inl hbs)
  rw [newSlug_of_ne b hbs] at c3 c4
  exact ⟨c4, c1, c2, c3⟩

theorem forall₂_map_right {α : Type} {R : α → α → Prop} (l : List α) (f : α → α)
    (h : ∀ x ∈ l, R x (f x)) : List.Forall₂ R l (l.map f) := by
  induction l with
  | nil => exact List.Forall₂.nil
  | cons x xs ih =>
    rw [List.map_cons]
    exact List.Forall₂.cons (h x (List.mem_cons_self _ _))
      (ih (fun y hy => h y (List.mem_cons_of_mem _ hy)))

theorem picture_save_skel (w3 : World) (p : PictureRec) : PicSkelEq p (picture_save w3 p) := by
  unfold picture_save
  cases findAlbum w3 p.albumId <;> exact ⟨rfl, rfl, rfl⟩

theorem save_skel (w2 : World) (bId : Nat)
    (hnd : (w2.albums.map (fun b => b.id)).Nodup)
    (hs : ∀ b ∈ w2.albums, b.slug ≠ [] ∧ '/' ∉ b.slug) :
    Skel w2 (save_notraverse w2 bId) := by
  unfold save_notraverse saveOne
  cases hb : findAlbum w2 bId with
  | none => exact skel_refl w2
  | some b =>
    dsimp only
    obtain ⟨hmem, hid⟩ := findAlbum_props hb
    have hbs := (hs b hmem).1
    constructor
    · refine forall₂_map_right _ _ (fun x hx => ?_)
      by_cases hxid : x.id = (save_core w2 b).1.id
      · have hcid : (save_core w2 b).1.id = b.id := rfl
        have hxb : x = b := List.inj_on_of_nodup_map hnd hx hmem (by rw [hxid, hcid])
        subst hxb
        rw [if_pos hxid]
        obtain ⟨-, f1, f2, f3⟩ := save_core_fields w2 x hbs
        exact ⟨f1, f2, f3⟩
      · rw [if_neg hxid]
        exact ⟨rfl, rfl, rfl⟩
    · refine forall₂_map_right _ _ (fun p hp => ?_)
      by_cases hpa : p.albumId = bId
      · rw [if_pos hpa]
        exact picture_save_skel _ p
      · rw [if_neg hpa]
        exact ⟨rfl, rfl, rfl⟩

theorem fold_frame (L : List Nat) : ∀ (start : World) (j : Nat), j ∉ L →
    findAlbum (L.foldl (fun wacc bId => save_notraverse wacc bId) start) j =
      findAlbum start j := by
  induction L with
  | nil => intro start j _; rfl
  | cons d rest ih =>
    intro start j hj
    rw [List.foldl_cons]
    rw [ih _ _ (fun hc => hj (List.mem_cons_of_mem _ hc))]
    exact save_notraverse_other start d j (fun hc => hj (hc ▸ List.mem_cons_self _ _))

theorem fold_skel (L : List Nat) : ∀ (start : World),
    (start.albums.map (fun b => b.id)).Nodup →
    (∀ b ∈ start.albums, b.slug ≠ [] ∧ '/' ∉ b.slug) →
    Skel start (L.foldl (fun wacc bId => save_notraverse wacc bId) start) := by
  induction L with
  | nil => intro start _ _; exact skel_refl start
  | cons d rest ih =>
    intro start hnd hs
    rw [List.foldl_cons]
    have h1 := save_skel start d hnd hs
    exact skel_trans h1 (ih _ (skel_nodup h1 hnd) (skel_slugs h1 hs))

/-! ## Parent-chain lemmas -/

theorem findAlbum_of_mem (w : World) (hnd : (w.albums.map (fun b => b.id)).Nodup)
    (c : AlbumRec) (hc : c ∈ w.albums) : findAlbum w c.id = some c := by
  cases hf : findAlbum w c.id with
  | none =>
    unfold findAlbum at hf
    rw [List.find?_eq_none] at hf
    exact absurd (by simp : (fun b => b.id == c.id) c = true) (hf c hc)
  | some r =>
    obtain ⟨hmem, hid⟩ := findAlbum_props hf
    rw [List.inj_on_of_nodup_map hnd hmem hc hid]

theorem chainReach_mono (w : World) :
    ∀ {f g b t : Nat}, f ≤ g → chainReach w f b t = true → chainReach w g b t = true := by
  intro f
  induction f with
  | zero => intro g b t _ h; cases h
  | succ f ih =>
    intro g b t hfg h
    cases g with
    | zero => omega
    | succ g =>
      unfold chainReach at h ⊢
      cases hp : parentIdOf w b with
      | none => rw [hp] at h; simp at h
      | some p =>
        rw [hp] at h
        dsimp only at h ⊢
        have h' : p = t ∨ chainReach w f p t = true := by simpa using h
        rcases h' with h1 | h2
        · simp [h1]
        · have := ih (show f ≤ g by omega) h2
          simp [this]

theorem parentIdOf_dm (w : World) (dm : Nat → Nat)
    (hdm : ∀ b ∈ w.albums, ∀ pid, b.parent = some pid → dm pid < dm b.id)
    {b p : Nat} (hp : parentIdOf w b = some p) : dm p < dm b := by
  unfold parentIdOf at hp
  cases hfb : findAlbum w b with
  | none => rw [hfb] at hp; cases hp
  | some br =>
    rw [hfb] at hp
    obtain ⟨hmem, hid⟩ := findAlbum_props hfb
    have := hdm br hmem p (by simpa using hp)
    rwa [hid] at this

theorem chainReach_dm (w : World) (dm : Nat → Nat)
    (hdm : ∀ b ∈ w.albums, ∀ pid, b.parent = some pid → dm pid < dm b.id) :
    ∀ (f b t : Nat), chainReach w f b t = true → dm t < dm b := by
  intro f
  induction f with
  | zero => intro b t h; cases h
  | succ f ih =>
    intro b t h
    unfold chainReach at h
    cases hp : parentIdOf w b with
    | none => rw [hp] at h; simp at h
    | some p =>
      rw [hp] at h
      dsimp only at h
      have hple : dm p < dm b := parentIdOf_dm w dm hdm hp
      have h' : p = t ∨ chainReach w f p t = true := by simpa using h
      rcases h' with h1 | h2
      · rw [h1] at hple
        exact hple
      · exact lt_trans (ih p t h2) hple

theorem chainReach_irrefl (w : World) (dm : Nat → Nat)
    (hdm : ∀ b ∈ w.albums, ∀ pid, b.parent = some pid → dm pid < dm b.id)
    (f b : Nat) : chainReach w f b b = false := by
  cases h : chainReach w f b b with
  | false => rfl
  | true => exact absurd (chainReach_dm w dm hdm f b b h) (lt_irrefl _)

theorem chainReach_norm (w : World) (dm : Nat → Nat)
    (hdm : ∀ b ∈ w.albums, ∀ pid, b.parent = some pid → dm pid < dm b.id) :
    ∀ (f : Nat) {b t g : Nat}, chainReach w f b t = true → dm b < g →
      chainReach w g b t = true := by
  intro f
  induction f with
  | zero => intro b t g h; cases h
  | succ f ih =>
    intro b t g h hg
    cases g with
    | zero => omega
    | succ g =>
      unfold chainReach at h ⊢
      cases hp : parentIdOf w b with
      | none => rw [hp] at h; simp at h
      | some p =>
        rw [hp] at h
        dsimp only at h ⊢
        have hple : dm p < dm b := parentIdOf_dm w dm hdm hp
        have h' : p = t ∨ chainReach w f p t = true := by simpa using h
        rcases h' with h1 | h2
        · simp [h1]
        · have := ih h2 (show dm p < g by omega)
          simp [this]

theorem chainReach_trans (w : World) :
    ∀ (f : Nat) {g b m t : Nat}, chainReach w f b m = true → chainReach w g m t = true →
      chainReach w (f + g) b t = true := by
  intro f
  induction f with
  | zero => intro g b m t h; cases h
  | succ f ih =>
    intro g b m t h hm
    unfold chainReach at h
    rw [show f + 1 + g = f + g + 1 by omega]
    show chainReach w (f + g + 1) b t = true
    unfold chainReach
    cases hp : parentIdOf w b with
    | none => rw [hp] at h; simp at h
    | some p =>
      rw [hp] at h
      dsimp only at h ⊢
      have h' : p = m ∨ chainReach w f p m = true := by simpa using h
      rcases h' with h1 | h2
      · subst h1
        simp [chainReach_mono w (by omega : g ≤ f + g) hm]
      · simp [ih h2 hm]

theorem chainReach_step (w : World) {b p : Nat} (hp : parentIdOf w b = some p) (f : Nat) :
    chainReach w (f + 1) b p = true := by
  unfold chainReach
  rw [hp]
  simp

/-! ## Intended-path lemmas -/

theorem expPath_aId (w : World) (N : Str) (aId f : Nat) (hf : 1 ≤ f) :
    expPath w N aId f aId = N := by
  cases f with
  | zero => omega
  | succ f => unfold expPath; simp

theorem expPath_stable (w : World) (N : Str) (aId : Nat) (dm : Nat → Nat)
    (hdm : ∀ b ∈ w.albums, ∀ pid, b.parent = some pid → dm pid < dm b.id) :
    ∀ (k b f g : Nat), dm b < k → dm b < f → dm b < g →
      expPath w N aId f b = expPath w N aId g b := by
  intro k
  induction k with
  | zero => intro b f g h _ _; omega
  | succ k ih =>
    intro b f g hk hf hg
    cases f with
    | zero => omega
    | succ f =>
      cases g with
      | zero => omega
      | succ g =>
        unfold expPath
        by_cases hb : b = aId
        · simp [hb]
        · rw [if_neg hb, if_neg hb]
          cases hfb : findAlbum w b with
          | none => rfl
          | some br =>
            dsimp only
            cases hp : br.parent with
            | none => rfl
            | some pid =>
              dsimp only
              have hpid : dm pid < dm b := by
                obtain ⟨hmem, hid⟩ := findAlbum_props hfb
                have := hdm br hmem pid hp
                rwa [hid] at this
              rw [ih pid f g (by omega) (by omega) (by omega)]

theorem expPath_succ (w : World) (N : Str) (aId f b : Nat) :
    expPath w N aId (f + 1) b =
      if b = aId then N
      else
        match findAlbum w b with
        | none => pathOf w b
        | some br =>
          match br.parent with
          | none => br.path
          | some pid => make_path (some (expPath w N aId f pid)) br.slug := rfl

theorem expPath_parent (w : World) (N : Str) (aId : Nat) (dm : Nat → Nat)
    (hdm : ∀ b ∈ w.albums, ∀ pid, b.parent = some pid → dm pid < dm b.id)
    (b pid : Nat) (br : AlbumRec) (f : Nat)
    (hb : b ≠ aId) (hfb : findAlbum w b = some br) (hp : br.parent = some pid)
    (hf : dm b < f) :
    expPath w N aId f b = make_path (some (expPath w N aId f pid)) br.slug := by
  cases f with
  | zero => omega
  | succ f =>
    rw [expPath_succ, if_neg hb, hfb]
    dsimp only
    rw [hp]
    dsimp only
    have hpid : dm pid < dm b := by
      obtain ⟨hmem, hid⟩ := findAlbum_props hfb
      have := hdm br hmem pid hp
      rwa [hid] at this
    rw [expPath_stable w N aId dm hdm (dm pid + 1) pid f (f + 1)
      (by omega) (by omega) (by omega)]

theorem expPath_rootnode (w : World) (N : Str) (aId : Nat) (b : Nat) (br : AlbumRec)
    (f : Nat) (hb : b ≠ aId) (hfb : findAlbum w b = some br) (hp : br.parent = none)
    (hf : 1 ≤ f) : expPath w N aId f b = br.path := by
  cases f with
  | zero => omega
  | succ f =>
    unfold expPath
    rw [if_neg hb, hfb]
    dsimp only
    rw [hp]

theorem findAlbum_of_parent (w : World)
    (hpex : ∀ b ∈ w.albums, ∀ pid, b.parent = some pid → ∃ p ∈ w.albums, p.id = pid)
    {br : AlbumRec} (hmem : br ∈ w.albums) {pid : Nat} (hp : br.parent = some pid) :
    ∃ prec, findAlbum w pid = some prec := by
  obtain ⟨p, hpm, hpid⟩ := hpex br hmem pid hp
  cases hfp : findAlbum w pid with
  | none =>
    unfold findAlbum at hfp
    rw [List.find?_eq_none] at hfp
    exact absurd (by simp [hpid] : (fun b => b.id == pid) p = true) (hfp p hpm)
  | some prec => exact ⟨prec, rfl⟩

theorem parentIdOf_found {w : World} {b pid : Nat} {br : AlbumRec}
    (hfb : findAlbum w b = some br) (hp : br.parent = some pid) :
    parentIdOf w b = some pid := by
  unfold parentIdOf
  rw [hfb]
  simpa using hp

theorem expPath_outside (w : World) (N : Str) (aId L : Nat) (dm : Nat → Nat)
    (hdm : ∀ b ∈ w.albums, ∀ pid, b.parent = some pid → dm pid < dm b.id)
    (hpex : ∀ b ∈ w.albums, ∀ pid, b.parent = some pid → ∃ p ∈ w.albums, p.id = pid)
    (hcons : ∀ b ∈ w.albums, b.id ≠ aId → b.path = make_path (parentPathOf w b) b.slug) :
    ∀ (k b : Nat) (br : AlbumRec) (f : Nat), dm b < k → dm b < f → dm b < L →
      findAlbum w b = some br → b ≠ aId → chainReach w L b aId = false →
      expPath w N aId f b = br.path := by
  intro k
  induction k with
  | zero => intro b br f h _ _ _ _ _; omega
  | succ k ih =>
    intro b br f hk hf hL hfb hb houts
    obtain ⟨hmem, hid⟩ := findAlbum_props hfb
    cases hp : br.parent with
    | none => exact expPath_rootnode w N aId b br f hb hfb hp (by omega)
    | some pid =>
      have hpiO : parentIdOf w b = some pid := parentIdOf_found hfb hp
      have hpid : dm pid < dm b := by
        have := hdm br hmem pid hp
        rwa [hid] at this
      obtain ⟨prec, hfp⟩ := findAlbum_of_parent w hpex hmem hp
      have hpid_ne : pid ≠ aId := by
        intro hcon
        subst hcon
        have h1 : chainReach w L b pid = true := by
          have := chainReach_step w hpiO (L - 1)
          have hL1 : L - 1 + 1 = L := by omega
          rwa [hL1] at this
        rw [h1] at houts
        cases houts
      have hpouts : chainReach w L pid aId = false := by
        cases hcr : chainReach w L pid aId with
        | false => rfl
        | true =>
          have h1 : chainReach w (1 + L) b aId = true :=
            chainReach_trans w 1 (chainReach_step w hpiO 0) hcr
          have h2 : chainReach w L b aId = true :=
            chainReach_norm w dm hdm (1 + L) h1 hL
          rw [h2] at houts
          cases houts
      have hrec : expPath w N aId f pid = prec.path :=
        ih pid prec f (by omega) (by omega) (by omega) hfp hpid_ne hpouts
      rw [expPath_parent w N aId dm hdm b pid br f hb hfb hp hf, hrec]
      have := hcons br hmem (by rw [hid]; exact hb)
      rw [this]
      unfold parentPathOf
      rw [hp]
      dsimp only [Option.map_some']
      rw [hfp]
      rfl

/-! ## Good-path lemmas -/

theorem goodPath_make (pp s : Str) (hpp : GoodPath pp) (hs : s ≠ []) (hsl : '/' ∉ s) :
    GoodPath (make_path (some pp) s) ∧
    ∃ t, make_path (some pp) s = pp ++ t ∧ t ≠ [] := by
  rcases hpp with rfl | ⟨c, r, rfl, hc⟩
  · have heq : make_path (some ['/']) s = '/' :: s := by
      show collapseLeading (['/'] ++ '/' :: s) = _
      simp [collapseLeading]
    refine ⟨?_, ?_⟩
    · rw [heq]
      cases s with
      | nil => exact absurd rfl hs
      | cons s0 s' =>
        exact Or.inr ⟨s0, s', rfl, fun hcon => hsl (hcon ▸ List.mem_cons_self _ _)⟩
    · rw [heq]
      exact ⟨s, rfl, hs⟩
  · have heq : make_path (some ('/' :: c :: r)) s = '/' :: c :: (r ++ '/' :: s) := by
      show collapseLeading (('/' :: c :: r) ++ '/' :: s) = _
      simp [collapseLeading, hc]
    refine ⟨?_, ?_⟩
    · rw [heq]
      exact Or.inr ⟨c, r ++ '/' :: s, rfl, hc⟩
    · rw [heq]
      exact ⟨'/' :: s, by simp, by simp⟩

/-! ## Target-sequence lemmas -/

theorem goodSeq_append (w : World) (aId : Nat) (sub : Nat → Bool) :
    ∀ {X Y al : List Nat}, GoodSeq w aId sub al X →
      GoodSeq w aId sub (X.reverse ++ al) Y → GoodSeq w aId sub al (X ++ Y) := by
  intro X
  induction X with
  | nil => intro Y al _ h2; simpa using h2
  | cons x X ih =>
    intro Y al h1 h2
    obtain ⟨ha, hb, hc⟩ := h1
    refine ⟨ha, hb, ?_⟩
    refine ih hc ?_
    have hrw : (x :: X).reverse ++ al = X.reverse ++ (x :: al) := by simp
    rwa [hrw] at h2

theorem goodSeq_outside (w : World) (aId : Nat) (sub : Nat → Bool) :
    ∀ (X al : List Nat), (∀ e ∈ X, e ≠ aId ∧ sub e = false) →
      GoodSeq w aId sub al X := by
  intro X
  induction X with
  | nil => intro al _; trivial
  | cons x X ih =>
    intro al h
    refine ⟨(h x (List.mem_cons_self _ _)).1, ?_,
      ih _ (fun e he => h e (List.mem_cons_of_mem _ he))⟩
    intro hs
    rw [(h x (List.mem_cons_self _ _)).2] at hs
    cases hs

theorem descAux_succ (w : World) (f r : Nat) :
    descendantIdsAux (f + 1) w r =
      (subalbumsOf w r).flatMap (fun c => c.id :: descendantIdsAux f w c.id) := rfl

theorem subalbum_parentIdOf (w : World)
    (hnd : (w.albums.map (fun b => b.id)).Nodup)
    {r : Nat} {c : AlbumRec} (hc : c ∈ subalbumsOf w r) :
    parentIdOf w c.id = some r ∧ c ∈ w.albums := by
  have hcmem : c ∈ w.albums := (List.mem_filter.1 hc).1
  have hcp : c.parent = some r := by
    have := (List.mem_filter.1 hc).2
    simpa using this
  refine ⟨?_, hcmem⟩
  unfold parentIdOf
  rw [findAlbum_of_mem w hnd c hcmem]
  simpa using hcp

theorem descAux_chain (w : World) (hnd : (w.albums.map (fun b => b.id)).Nodup) :
    ∀ (f r e : Nat), e ∈ descendantIdsAux f w r → chainReach w f e r = true := by
  intro f
  induction f with
  | zero => intro r e h; cases h
  | succ f ih =>
    intro r e h
    rw [descAux_succ, List.mem_flatMap] at h
    obtain ⟨c, hc, hce⟩ := h
    obtain ⟨hpio, hcmem⟩ := subalbum_parentIdOf w hnd hc
    rcases List.mem_cons.1 hce with rfl | hdeep
    · exact chainReach_step w hpio f
    · exact chainReach_trans w f (ih c.id e hdeep) (chainReach_step w hpio 0)

theorem descAux_goodSeq (w : World) (aId : Nat) (sub : Nat → Bool)
    (hnd : (w.albums.map (fun b => b.id)).Nodup) :
    ∀ (f r : Nat) (al : List Nat), r ∈ al →
      (∀ e ∈ descendantIdsAux f w r, e ≠ aId) →
      GoodSeq w aId sub al (descendantIdsAux f w r) := by
  intro f
  induction f with
  | zero => intro r al _ _; trivial
  | succ f ih =>
    intro r al hr hne
    rw [descAux_succ]
    rw [descAux_succ] at hne
    suffices h : ∀ (cs : List AlbumRec), (∀ c ∈ cs, c ∈ subalbumsOf w r) →
        ∀ al2, r ∈ al2 →
        (∀ e ∈ cs.flatMap (fun c => c.id :: descendantIdsAux f w c.id), e ≠ aId) →
        GoodSeq w aId sub al2 (cs.flatMap (fun c => c.id :: descendantIdsAux f w c.id)) by
      exact h (subalbumsOf w r) (fun c hc => hc) al hr hne
    intro cs
    induction cs with
    | nil => intro _ al2 _ _; trivial
    | cons c cs ihc =>
      intro hcs al2 hral2 hne2
      rw [List.flatMap_cons]
      rw [List.flatMap_cons] at hne2
      have hcsub := hcs c (List.mem_cons_self _ _)
      obtain ⟨hpio, hcmem⟩ := subalbum_parentIdOf w hnd hcsub
      refine goodSeq_append w aId sub ?_ ?_
      · refine ⟨?_, fun _ => ⟨r, hpio, hral2⟩, ?_⟩
        · exact hne2 c.id (by simp)
        · exact ih c.id (c.id :: al2) (List.mem_cons_self _ _)
            (fun e he => hne2 e (by simp [he]))
      · exact ihc (fun c' hc' => hcs c' (List.mem_cons_of_mem _ hc'))
          _ (by simp [hral2])
          (fun e he => hne2 e (by simp [he]))

/-! ## Single-save prerequisites for the fold invariant -/

theorem skel_findAlbum_some {w w2 : World} (h : Skel w w2) {d : Nat} {br : AlbumRec}
    (hfb : findAlbum w d = some br) :
    ∃ br2, findAlbum w2 d = some br2 ∧ SkelEq br br2 := by
  rcases find?_skel h.1 d with ⟨h1, _⟩ | ⟨b, b2, h1, h2, hsk⟩
  · unfold findAlbum at hfb
    rw [h1] at hfb
    cases hfb
  · unfold findAlbum at hfb
    rw [h1] at hfb
    injection hfb with he
    subst he
    exact ⟨b2, h2, hsk⟩

theorem save_notraverse_pictures (w2 : World) (bId : Nat) (b : AlbumRec)
    (hb : findAlbum w2 bId = some b) :
    (save_notraverse w2 bId).pictures =
      w2.pictures.map (fun p => if p.albumId = bId then
        picture_save (putAlbum w2 (save_core w2 b).1) p else p) := by
  unfold save_notraverse saveOne
  rw [hb]
  rfl

theorem picture_save_path (w3 : World) (p : PictureRec) (ar : AlbumRec)
    (ha : findAlbum w3 p.albumId = some ar) :
    picture_save w3 p = { p with path := make_path (some ar.path) p.slug } := by
  unfold picture_save
  rw [ha]

theorem findAlbum_putAlbum_found (w2 : World) (a' : AlbumRec)
    (hex : ∃ a ∈ w2.albums, a.id = a'.id) :
    findAlbum (putAlbum w2 a') a'.id = some a' :=
  findAlbum_putAlbum_self w2 a' hex

theorem outside_parent (w : World) (aId : Nat) (dm : Nat → Nat) (L : Nat)
    (hdm : ∀ b ∈ w.albums, ∀ pid, b.parent = some pid → dm pid < dm b.id)
    {d pid : Nat} (hpiO : parentIdOf w d = some pid) (hdL : dm d < L)
    (houts : chainReach w L d aId = false) :
    pid ≠ aId ∧ chainReach w L pid aId = false := by
  constructor
  · intro hcon
    subst hcon
    have h1 := chainReach_step w hpiO (L - 1)
    rw [show L - 1 + 1 = L by omega] at h1
    rw [h1] at houts
    cases houts
  · cases hcr : chainReach w L pid aId with
    | false => rfl
    | true =>
      exfalso
      have h1 : chainReach w (1 + L) d aId = true :=
        chainReach_trans w 1 (chainReach_step w hpiO 0) hcr
      have h2 : chainReach w L d aId = true := chainReach_norm w dm hdm (1 + L) h1 hdL
      rw [h2] at houts
      cases houts

/-- The path written by a non-propagating save of `d` in an intermediate
world `w2` equals the intended final path of `d`, provided every parent
inside the subtree has already reached its intended path and every node
outside the subtree still carries its original path. -/
theorem saved_path_expected (w : World) (aId : Nat) (N : Str) (dm : Nat → Nat) (L : Nat)
    (hdm : ∀ b ∈ w.albums, ∀ pid, b.parent = some pid → dm pid < dm b.id)
    (hpex : ∀ b ∈ w.albums, ∀ pid, b.parent = some pid → ∃ p ∈ w.albums, p.id = pid)
    (hLall : ∀ b ∈ w.albums, dm b.id < L)
    (hcons : ∀ b ∈ w.albums, b.id ≠ aId → b.path = make_path (parentPathOf w b) b.slug)
    (w2 : World) (hsk : Skel w w2)
    (d : Nat) (br br2 : AlbumRec)
    (hfb : findAlbum w d = some br)
    (_hfb2 : findAlbum w2 d = some br2)
    (hskd : SkelEq br br2)
    (hdne : d ≠ aId)
    (hinv_in : ∀ pid, br.parent = some pid → chainReach w L d aId = true →
      ∃ pr2, findAlbum w2 pid = some pr2 ∧ pr2.path = expPath w N aId L pid)
    (hinv_out : ∀ b br3, findAlbum w2 b = some br3 → b ≠ aId →
      chainReach w L b aId = false → br3.path = pathOf w b) :
    make_path (parentPathOf w2 br2) br2.slug = expPath w N aId L d := by
  obtain ⟨hmem, hid⟩ := findAlbum_props hfb
  have hdL : dm d < L := by
    have := hLall br hmem
    rwa [hid] at this
  cases hp : br.parent with
  | none =>
    have hp2 : br2.parent = none := by rw [hskd.2.1, hp]
    have h1 : parentPathOf w2 br2 = none := by
      unfold parentPathOf
      rw [hp2]
      rfl
    have h2 : parentPathOf w br = none := by
      unfold parentPathOf
      rw [hp]
      rfl
    rw [h1, expPath_rootnode w N aId d br L hdne hfb hp (by omega)]
    rw [hcons br hmem (by rw [hid]; exact hdne), h2]
    rfl
  | some pid =>
    have hpiO : parentIdOf w d = some pid := parentIdOf_found hfb hp
    have hp2 : br2.parent = some pid := by rw [hskd.2.1, hp]
    cases hsub : chainReach w L d aId with
    | true =>
      obtain ⟨pr2, hfpr2, hexp⟩ := hinv_in pid hp hsub
      have h1 : parentPathOf w2 br2 = some pr2.path := by
        unfold parentPathOf
        rw [hp2]
        dsimp only [Option.map_some']
        rw [hfpr2]
        rfl
      rw [h1, hexp, hskd.2.2]
      exact (expPath_parent w N aId dm hdm d pid br L hdne hfb hp hdL).symm
    | false =>
      obtain ⟨hpid_ne, hpouts⟩ := outside_parent w aId dm L hdm hpiO hdL hsub
      obtain ⟨prec, hfp⟩ := findAlbum_of_parent w hpex hmem hp
      obtain ⟨prec2, hfp2, hskp⟩ := skel_findAlbum_some hsk hfp
      have hout := hinv_out pid prec2 hfp2 hpid_ne hpouts
      have h1 : parentPathOf w2 br2 = some prec2.path := by
        unfold parentPathOf
        rw [hp2]
        dsimp only [Option.map_some']
        rw [hfp2]
        rfl
      have h2 : expPath w N aId L d = br.path :=
        expPath_outside w N aId L dm hdm hpex hcons (dm d + 1) d br L
          (by omega) hdL hdL hfb hdne hsub
      rw [h1, hout, h2, hskd.2.2]
      have h3 := hcons br hmem (by rw [hid]; exact hdne)
      rw [h3]
      unfold parentPathOf pathOf
      rw [hp]
      rfl

/-- Folding the non-propagating save over a well-ordered target list takes
every target to its intended path, keeps outside nodes at their original
paths, and leaves every processed album's pictures consistent with it. -/
theorem fold_inv (w : World) (aId : Nat) (N : Str) (dm : Nat → Nat) (L : Nat)
    (hids : (w.albums.map (fun b => b.id)).Nodup)
    (hdm : ∀ b ∈ w.albums, ∀ pid, b.parent = some pid → dm pid < dm b.id)
    (hpex : ∀ b ∈ w.albums, ∀ pid, b.parent = some pid → ∃ p ∈ w.albums, p.id = pid)
    (hLall : ∀ b ∈ w.albums, dm b.id < L)
    (hslugs : ∀ b ∈ w.albums, b.slug ≠ [] ∧ '/' ∉ b.slug)
    (hcons : ∀ b ∈ w.albums, b.id ≠ aId → b.path = make_path (parentPathOf w b) b.slug) :
    ∀ (targets al : List Nat) (w2 : World),
      Skel w w2 →
      GoodSeq w aId (fun b => chainReach w L b aId) al targets →
      (∀ d ∈ targets, findAlbum w d ≠ none) →
      (∀ x ∈ al, ∃ xr, findAlbum w2 x = some xr ∧ xr.path = expPath w N aId L x) →
      (∀ b br, findAlbum w2 b = some br → b ≠ aId → chainReach w L b aId = false →
        br.path = pathOf w b) →
      (∀ p ∈ w2.pictures, p.albumId ∈ al →
        ∃ ar, findAlbum w2 p.albumId = some ar ∧ p.path = make_path (some ar.path) p.slug) →
      ((∀ x, x ∈ al ∨ x ∈ targets →
        ∃ xr, findAlbum (targets.foldl (fun wacc bId => save_notraverse wacc bId) w2) x
          = some xr ∧ xr.path = expPath w N aId L x) ∧
       (∀ b br,
        findAlbum (targets.foldl (fun wacc bId => save_notraverse wacc bId) w2) b = some br →
        b ≠ aId → chainReach w L b aId = false → br.path = pathOf w b) ∧
       (∀ p ∈ (targets.foldl (fun wacc bId => save_notraverse wacc bId) w2).pictures,
        (p.albumId ∈ al ∨ p.albumId ∈ targets) →
        ∃ ar, findAlbum (targets.foldl (fun wacc bId => save_notraverse wacc bId) w2) p.albumId
          = some ar ∧ p.path = make_path (some ar.path) p.slug)) := by
  intro targets
  induction targets with
  | nil =>
    intro al w2 _ _ _ hinv_p hinv_out hinv_pic
    refine ⟨?_, hinv_out, ?_⟩
    · intro x hx
      rcases hx with hx | hx
      · exact hinv_p x hx
      · cases hx
    · intro p hp hx
      rcases hx with hx | hx
      · exact hinv_pic p hp hx
      · cases hx
  | cons d rest ih =>
    intro al w2 hsk hgs htg hinv_p hinv_out hinv_pic
    obtain ⟨hdne, hdpar, hgs_rest⟩ := hgs
    have htd := htg d (List.mem_cons_self _ _)
    cases hfb : findAlbum w d with
    | none => exact absurd hfb htd
    | some br =>
      obtain ⟨hmem, hid⟩ := findAlbum_props hfb
      have hdL : dm d < L := by
        have := hLall br hmem
        rwa [hid] at this
      obtain ⟨br2, hfb2, hskd⟩ := skel_findAlbum_some hsk hfb
      have hbs2 : br2.slug ≠ [] := by
        rw [hskd.2.2]
        exact (hslugs br hmem).1
      obtain ⟨fpath, fid, fparent, fslug⟩ := save_core_fields w2 br2 hbs2
      have hfound : findAlbum (save_notraverse w2 d) d = some (save_core w2 br2).1 :=
        save_notraverse_found w2 d br2 hfb2
      have hinv_in' : ∀ pid, br.parent = some pid → chainReach w L d aId = true →
          ∃ pr2, findAlbum w2 pid = some pr2 ∧ pr2.path = expPath w N aId L pid := by
        intro pid hp hsub
        obtain ⟨p, hpio_w, hp_al⟩ := hdpar hsub
        have hpio : parentIdOf w d = some pid := parentIdOf_found hfb hp
        rw [hpio] at hpio_w
        injection hpio_w with he
        subst he
        exact hinv_p _ hp_al
      have hpath_exp : (save_core w2 br2).1.path = expPath w N aId L d := by
        rw [fpath]
        exact saved_path_expected w aId N dm L hdm hpex hLall hcons w2 hsk d br br2 hfb hfb2
          hskd hdne hinv_in' hinv_out
      have hinvp' : ∀ x ∈ d :: al,
          ∃ xr, findAlbum (save_notraverse w2 d) x = some xr ∧
            xr.path = expPath w N aId L x := by
        intro x hx
        by_cases hxd : x = d
        · subst hxd
          exact ⟨_, hfound, hpath_exp⟩
        · have hx' : x ∈ al := by
            rcases List.mem_cons.1 hx with h | h
            · exact absurd h hxd
            · exact h
          obtain ⟨xr, hxr, hxp⟩ := hinv_p x hx'
          exact ⟨xr, by rw [save_notraverse_other w2 d x hxd]; exact hxr, hxp⟩
      have hinvout' : ∀ b br3, findAlbum (save_notraverse w2 d) b = some br3 → b ≠ aId →
          chainReach w L b aId = false → br3.path = pathOf w b := by
        intro b br3 hb3 hbne hbout
        by_cases hbd : b = d
        · subst hbd
          rw [hfound] at hb3
          injection hb3 with he
          subst he
          have h2 : expPath w N aId L b = br.path :=
            expPath_outside w N aId L dm hdm hpex hcons (dm b + 1) b br L
              (by omega) hdL hdL hfb hbne hbout
          rw [hpath_exp, h2]
          unfold pathOf
          rw [hfb]
          rfl
        · rw [save_notraverse_other w2 d b hbd] at hb3
          exact hinv_out b br3 hb3 hbne hbout
      have hinvpic' : ∀ p ∈ (save_notraverse w2 d).pictures, p.albumId ∈ d :: al →
          ∃ ar, findAlbum (save_notraverse w2 d) p.albumId = some ar ∧
            p.path = make_path (some ar.path) p.slug := by
        intro p hp hpal
        rw [save_notraverse_pictures w2 d br2 hfb2] at hp
        obtain ⟨p0, hp0, hpe⟩ := List.mem_map.1 hp
        by_cases hpad : p0.albumId = d
        · rw [if_pos hpad] at hpe
          have hSid : (save_core w2 br2).1.id = d := by
            rw [fid]
            exact (findAlbum_props hfb2).2
          have hput : findAlbum (putAlbum w2 (save_core w2 br2).1) d =
              some (save_core w2 br2).1 := by
            rw [← hSid]
            exact findAlbum_putAlbum_self w2 (save_core w2 br2).1
              ⟨br2, (findAlbum_props hfb2).1, by rw [fid]⟩
          rw [picture_save_path _ p0 (save_core w2 br2).1 (by rw [hpad]; exact hput)] at hpe
          subst hpe
          refine ⟨(save_core w2 br2).1, ?_, rfl⟩
          show findAlbum (save_notraverse w2 d) p0.albumId = _
          rw [hpad]
          exact hfound
        · rw [if_neg hpad] at hpe
          subst hpe
          have hpal' : p0.albumId ∈ al := by
            rcases List.mem_cons.1 hpal with h | h
            · exact absurd h hpad
            · exact h
          obtain ⟨ar, har, harp⟩ := hinv_pic p0 hp0 hpal'
          exact ⟨ar, by rw [save_notraverse_other w2 d _ hpad]; exact har, harp⟩
      have hsk' : Skel w (save_notraverse w2 d) :=
        skel_trans hsk (save_skel w2 d (skel_nodup hsk hids) (skel_slugs hsk hslugs))
      have hres := ih (d :: al) (save_notraverse w2 d) hsk' hgs_rest
        (fun e he => htg e (List.mem_cons_of_mem _ he)) hinvp' hinvout' hinvpic'
      obtain ⟨r1, r2, r3⟩ := hres
      simp only [List.foldl_cons]
      refine ⟨?_, r2, ?_⟩
      · intro x hx
        refine r1 x ?_
        rcases hx with hx | hx
        · exact Or.inl (List.mem_cons_of_mem _ hx)
        · rcases List.mem_cons.1 hx with rfl | hx'
          · exact Or.inl (List.mem_cons_self _ _)
          · exact Or.inr hx'
      · intro p hp hx
        refine r3 p hp ?_
        rcases hx with hx | hx
        · exact Or.inl (List.mem_cons_of_mem _ hx)
        · rcases List.mem_cons.1 hx with heq | hx'
          · exact Or.inl (heq ▸ List.mem_cons_self _ _)
          · exact Or.inr hx'

/-! ## Path-shape lemmas for the no-skip argument -/

theorem sep_append_inj :
    ∀ (r1 r2 s1 s2 : Str), '/' ∉ s1 → '/' ∉ s2 →
      r1 ++ '/' :: s1 = r2 ++ '/' :: s2 → r1 = r2 ∧ s1 = s2 := by
  intro r1
  induction r1 with
  | nil =>
    intro r2 s1 s2 hs1 hs2 heq
    cases r2 with
    | nil =>
      simp only [List.nil_append, List.cons.injEq] at heq
      exact ⟨rfl, heq.2⟩
    | cons c r2' =>
      simp only [List.nil_append, List.cons_append, List.cons.injEq] at heq
      exfalso
      exact hs1 (heq.2 ▸ List.mem_append_right r2' (List.mem_cons_self _ _))
  | cons c r1' ih =>
    intro r2 s1 s2 hs1 hs2 heq
    cases r2 with
    | nil =>
      simp only [List.cons_append, List.nil_append, List.cons.injEq] at heq
      exfalso
      exact hs2 (heq.2 ▸ List.mem_append_right r1' (List.mem_cons_self _ _))
    | cons c2 r2' =>
      simp only [List.cons_append, List.cons.injEq] at heq
      obtain ⟨rfl, heq2⟩ := heq
      obtain ⟨h1, h2⟩ := ih r2' s1 s2 hs1 hs2 heq2
      exact ⟨by rw [h1], h2⟩

theorem make_path_form (pp s : Str) (hpp : GoodPath pp) :
    make_path (some pp) s = pp ++ '/' :: s ∨ (pp = ['/'] ∧ make_path (some pp) s = '/' :: s) := by
  rcases hpp with rfl | ⟨c, r, rfl, hc⟩
  · right
    refine ⟨rfl, ?_⟩
    show collapseLeading (['/'] ++ '/' :: s) = _
    simp [collapseLeading]
  · left
    show collapseLeading (('/' :: c :: r) ++ '/' :: s) = _
    simp [collapseLeading, hc]

theorem make_path_inj (pp1 pp2 s1 s2 : Str) (h1 : GoodPath pp1) (h2 : GoodPath pp2)
    (hs1 : '/' ∉ s1) (hs2 : '/' ∉ s2)
    (heq : make_path (some pp1) s1 = make_path (some pp2) s2) : pp1 = pp2 ∧ s1 = s2 := by
  rcases h1 with hr1 | ⟨c1, r1, hp1, hc1⟩ <;> rcases h2 with hr2 | ⟨c2, r2, hp2, hc2⟩
  · have e1 : make_path (some pp1) s1 = '/' :: s1 := by
      rw [hr1]; show collapseLeading (['/'] ++ '/' :: s1) = _; simp [collapseLeading]
    have e2 : make_path (some pp2) s2 = '/' :: s2 := by
      rw [hr2]; show collapseLeading (['/'] ++ '/' :: s2) = _; simp [collapseLeading]
    rw [e1, e2] at heq
    exact ⟨hr1.trans hr2.symm, by simpa using heq⟩
  · have e1 : make_path (some pp1) s1 = '/' :: s1 := by
      rw [hr1]; show collapseLeading (['/'] ++ '/' :: s1) = _; simp [collapseLeading]
    have e2 : make_path (some pp2) s2 = '/' :: c2 :: (r2 ++ '/' :: s2) := by
      rw [hp2]; show collapseLeading (('/' :: c2 :: r2) ++ '/' :: s2) = _
      simp [collapseLeading, hc2]
    rw [e1, e2] at heq
    simp only [List.cons.injEq] at heq
    exact absurd (heq.2.symm ▸ List.mem_cons_of_mem c2
      (List.mem_append_right r2 (List.mem_cons_self _ _))) hs1
  · have e1 : make_path (some pp1) s1 = '/' :: c1 :: (r1 ++ '/' :: s1) := by
      rw [hp1]; show collapseLeading (('/' :: c1 :: r1) ++ '/' :: s1) = _
      simp [collapseLeading, hc1]
    have e2 : make_path (some pp2) s2 = '/' :: s2 := by
      rw [hr2]; show collapseLeading (['/'] ++ '/' :: s2) = _; simp [collapseLeading]
    rw [e1, e2] at heq
    simp only [List.cons.injEq] at heq
    exact absurd (heq.2 ▸ List.mem_cons_of_mem c1
      (List.mem_append_right r1 (List.mem_cons_self _ _))) hs2
  · have e1 : make_path (some pp1) s1 = '/' :: c1 :: (r1 ++ '/' :: s1) := by
      rw [hp1]; show collapseLeading (('/' :: c1 :: r1) ++ '/' :: s1) = _
      simp [collapseLeading, hc1]
    have e2 : make_path (some pp2) s2 = '/' :: c2 :: (r2 ++ '/' :: s2) := by
      rw [hp2]; show collapseLeading (('/' :: c2 :: r2) ++ '/' :: s2) = _
      simp [collapseLeading, hc2]
    rw [e1, e2] at heq
    simp only [List.cons.injEq] at heq
    obtain ⟨-, rfl, htl⟩ := heq
    obtain ⟨hr, hsuf⟩ := sep_append_inj r1 r2 s1 s2 hs1 hs2 htl
    exact ⟨by rw [hp1, hp2, hr], hsuf⟩

theorem make_path_longer (pp s : Str) (hpp : GoodPath pp) (hs : s ≠ []) (hsl : '/' ∉ s) :
    pp.length < (make_path (some pp) s).length := by
  obtain ⟨-, t, heq, ht⟩ := goodPath_make pp s hpp hs hsl
  rw [heq, List.length_append]
  have : t.length ≠ 0 := fun hc => ht (List.length_eq_zero.1 hc)
  omega

theorem goodPath_ne_nil {p : Str} (h : GoodPath p) : p ≠ [] := by
  rcases h with rfl | ⟨c, r, rfl, -⟩ <;> simp

theorem parentPathOf_of_found {w : World} {br prec : AlbumRec} {pid : Nat}
    (hp : br.parent = some pid) (hfp : findAlbum w pid = some prec) :
    parentPathOf w br = some prec.path := by
  unfold parentPathOf
  rw [hp]
  dsimp only [Option.map_some']
  rw [hfp]
  rfl

/-- Every album record reachable by `findAlbum` carries a well-formed absolute
path, assuming the standing consistency invariant for non-saving nodes and a
decomposable (previous-save-shaped) path for the saving node itself. -/
theorem path_good_all (w : World) (aId : Nat) (a : AlbumRec) (dm : Nat → Nat)
    (ha : findAlbum w aId = some a)
    (hdm : ∀ b ∈ w.albums, ∀ pid, b.parent = some pid → dm pid < dm b.id)
    (hpex : ∀ b ∈ w.albums, ∀ pid, b.parent = some pid → ∃ p ∈ w.albums, p.id = pid)
    (hslugs : ∀ b ∈ w.albums, b.slug ≠ [] ∧ '/' ∉ b.slug)
    (hcons : ∀ b ∈ w.albums, b.id ≠ aId → b.path = make_path (parentPathOf w b) b.slug)
    (osl : Str) (hos1 : osl ≠ []) (hos2 : '/' ∉ osl)
    (hApath : a.path = make_path (parentPathOf w a) osl) :
    ∀ (k b : Nat) (br : AlbumRec), dm b < k → findAlbum w b = some br →
      GoodPath br.path := by
  intro k
  induction k with
  | zero => intro b br h _; omega
  | succ k ih =>
    intro b br hk hfb
    obtain ⟨hmem, hid⟩ := findAlbum_props hfb
    have hshape : ∃ s, s ≠ [] ∧ '/' ∉ s ∧ br.path = make_path (parentPathOf w br) s := by
      by_cases hba : b = aId
      · subst hba
        rw [ha] at hfb
        injection hfb with he
        subst he
        exact ⟨osl, hos1, hos2, hApath⟩
      · have hbid : br.id ≠ aId := by rw [hid]; exact hba
        exact ⟨br.slug, (hslugs br hmem).1, (hslugs br hmem).2, hcons br hmem hbid⟩
    obtain ⟨s, hs1, hs2, hpath⟩ := hshape
    cases hp : br.parent with
    | none =>
      rw [hpath]
      unfold parentPathOf
      rw [hp]
      exact Or.inl rfl
    | some pid =>
      obtain ⟨prec, hfp⟩ := findAlbum_of_parent w hpex hmem hp
      have hpg : GoodPath prec.path := by
        refine ih pid prec ?_ hfp
        have := hdm br hmem pid hp
        rw [hid] at this
        omega
      rw [hpath, parentPathOf_of_found hp hfp]
      exact (goodPath_make prec.path s hpg hs1 hs2).1

/-- Stale paths inside the saving node's subtree are at least as long as the
saving node's own (stale) path. -/
theorem stale_len_ge (w : World) (aId : Nat) (a : AlbumRec) (dm : Nat → Nat) (L : Nat)
    (ha : findAlbum w aId = some a)
    (hdm : ∀ b ∈ w.albums, ∀ pid, b.parent = some pid → dm pid < dm b.id)
    (hpex : ∀ b ∈ w.albums, ∀ pid, b.parent = some pid → ∃ p ∈ w.albums, p.id = pid)
    (hslugs : ∀ b ∈ w.albums, b.slug ≠ [] ∧ '/' ∉ b.slug)
    (hcons : ∀ b ∈ w.albums, b.id ≠ aId → b.path = make_path (parentPathOf w b) b.slug)
    (hGoodAll : ∀ (b : Nat) (br : AlbumRec), findAlbum w b = some br → GoodPath br.path) :
    ∀ (k d : Nat) (brd : AlbumRec), dm d < k → findAlbum w d = some brd →
      (d = aId ∨ chainReach w L d aId = true) →
      a.path.length ≤ brd.path.length := by
  intro k
  induction k with
  | zero => intro d brd h _ _; omega
  | succ k ih =>
    intro d brd hk hfd hin
    rcases hin with rfl | hcr
    · rw [ha] at hfd
      injection hfd with he
      subst he
      exact le_refl _
    · have hdne : d ≠ aId := by
        intro hcon
        subst hcon
        rw [chainReach_irrefl w dm hdm] at hcr
        cases hcr
      obtain ⟨hmem, hid⟩ := findAlbum_props hfd
      cases hL : L with
      | zero => rw [hL] at hcr; cases hcr
      | succ f =>
        rw [hL] at hcr
        unfold chainReach at hcr
        cases hpio : parentIdOf w d with
        | none => rw [hpio] at hcr; cases hcr
        | some p =>
          rw [hpio] at hcr
          dsimp only at hcr
          have hps : p = aId ∨ chainReach w L p aId = true := by
            have h' : p = aId ∨ chainReach w f p aId = true := by simpa using hcr
            rcases h' with h1 | h2
            · exact Or.inl h1
            · exact Or.inr (chainReach_mono w (by omega) h2)
          have hpd : dm p < dm d := parentIdOf_dm w dm hdm hpio
          have hbp : brd.parent = some p := by
            unfold parentIdOf at hpio
            rw [hfd] at hpio
            simpa using hpio
          obtain ⟨prec, hfp⟩ := findAlbum_of_parent w hpex hmem hbp
          have hle : a.path.length ≤ prec.path.length :=
            ih p prec (by omega) hfp hps
          have hconsd : brd.path = make_path (some prec.path) brd.slug := by
            rw [hcons brd hmem (by rw [hid]; exact hdne), parentPathOf_of_found hbp hfp]
          have hlonger : prec.path.length < brd.path.length := by
            rw [hconsd]
            exact make_path_longer prec.path brd.slug (hGoodAll p prec hfp)
              (hslugs brd hmem).1 (hslugs brd hmem).2
          omega

/-- No strict descendant of the saving node is skipped by the
`album.path != self.path` check: a stale descendant path never equals the
saving node's new path. -/
theorem desc_not_skipped (w : World) (aId : Nat) (a : AlbumRec) (dm : Nat → Nat) (L : Nat)
    (ha : findAlbum w aId = some a)
    (hdm : ∀ b ∈ w.albums, ∀ pid, b.parent = some pid → dm pid < dm b.id)
    (hpex : ∀ b ∈ w.albums, ∀ pid, b.parent = some pid → ∃ p ∈ w.albums, p.id = pid)
    (hslugs : ∀ b ∈ w.albums, b.slug ≠ [] ∧ '/' ∉ b.slug)
    (hcons : ∀ b ∈ w.albums, b.id ≠ aId → b.path = make_path (parentPathOf w b) b.slug)
    (osl : Str) (hos1 : osl ≠ []) (hos2 : '/' ∉ osl)
    (hApath : a.path = make_path (parentPathOf w a) osl) :
    ∀ (d : Nat) (brd : AlbumRec), findAlbum w d = some brd →
      chainReach w L d aId = true →
      brd.path ≠ make_path (parentPathOf w a) a.slug := by
  have hGoodAll : ∀ (b : Nat) (br : AlbumRec), findAlbum w b = some br → GoodPath br.path :=
    fun b br hfb =>
      path_good_all w aId a dm ha hdm hpex hslugs hcons osl hos1 hos2 hApath
        (dm b + 1) b br (by omega) hfb
  intro d brd hfd hcr heq
  have hdne : d ≠ aId := by
    intro hcon
    subst hcon
    rw [chainReach_irrefl w dm hdm] at hcr
    cases hcr
  obtain ⟨hmem, hid⟩ := findAlbum_props hfd
  obtain ⟨hmemA, hidA⟩ := findAlbum_props ha
  -- the descendant has a parent with a record
  have hcr' := hcr
  cases hL : L with
  | zero => rw [hL] at hcr'; cases hcr'
  | succ f =>
    rw [hL] at hcr'
    unfold chainReach at hcr'
    cases hpio : parentIdOf w d with
    | none => rw [hpio] at hcr'; cases hcr'
    | some p =>
      have hps : p = aId ∨ chainReach w L p aId = true := by
        rw [hpio] at hcr'
        dsimp only at hcr'
        have h' : p = aId ∨ chainReach w f p aId = true := by simpa using hcr'
        rcases h' with h1 | h2
        · exact Or.inl h1
        · exact Or.inr (chainReach_mono w (by omega) h2)
      have hbp : brd.parent = some p := by
        unfold parentIdOf at hpio
        rw [hfd] at hpio
        simpa using hpio
      obtain ⟨prec, hfp⟩ := findAlbum_of_parent w hpex hmem hbp
      have hconsd : brd.path = make_path (some prec.path) brd.slug := by
        rw [hcons brd hmem (by rw [hid]; exact hdne), parentPathOf_of_found hbp hfp]
      -- the saving node's stale path is at least as long as the parent's
      have haleprec : a.path.length ≤ prec.path.length :=
        stale_len_ge w aId a dm L ha hdm hpex hslugs hcons hGoodAll
          (dm p + 1) p prec (by omega) hfp hps
      cases hpa : a.parent with
      | none =>
        -- new path is the root path, but a consistent non-root path is longer
        have hN : make_path (parentPathOf w a) a.slug = ['/'] := by
          unfold parentPathOf
          rw [hpa]
          rfl
        rw [hN] at heq
        have hg : GoodPath prec.path := hGoodAll p prec hfp
        have hlen : prec.path.length < brd.path.length := by
          rw [hconsd]
          exact make_path_longer prec.path brd.slug hg (hslugs brd hmem).1 (hslugs brd hmem).2
        have hpne : prec.path ≠ [] := goodPath_ne_nil hg
        have hplen : 1 ≤ prec.path.length := by
          cases hpp : prec.path with
          | nil => exact absurd hpp hpne
          | cons c r => simp [hpp]
        have : brd.path.length = 1 := by rw [heq]; rfl
        omega
      | some pFa =>
        obtain ⟨precA, hfpA⟩ := findAlbum_of_parent w hpex hmemA hpa
        have hppa : parentPathOf w a = some precA.path := parentPathOf_of_found hpa hfpA
        rw [hppa] at heq
        rw [hconsd] at heq
        have hgp : GoodPath prec.path := hGoodAll p prec hfp
        have hgA : GoodPath precA.path := hGoodAll pFa precA hfpA
        obtain ⟨hpeq, -⟩ := make_path_inj prec.path precA.path brd.slug a.slug hgp hgA
          (hslugs brd hmem).2 (hslugs a hmemA).2 heq
        -- the parent-of-a path is strictly shorter than a's stale path
        have hAlonger : precA.path.length < a.path.length := by
          rw [hApath, hppa]
          exact make_path_longer precA.path osl hgA hos1 hos2
        rw [hpeq] at haleprec
        omega

/-! ## Ancestor-walk lemmas -/

theorem ancestorAux_chain (w : World) :
    ∀ (f : Nat) (op : Option Nat) (e b : Nat) (br : AlbumRec),
      e ∈ ancestorIdsAux f w op → findAlbum w b = some br → br.parent = op →
      chainReach w f b e = true := by
  intro f
  induction f with
  | zero => intro op e b br h _ _; cases op <;> simp [ancestorIdsAux] at h
  | succ f ih =>
    intro op e b br hmem hfb hbp
    cases op with
    | none => cases hmem
    | some pid =>
      have hpio : parentIdOf w b = some pid := parentIdOf_found hfb hbp
      cases hfp : findAlbum w pid with
      | none =>
        unfold ancestorIdsAux at hmem
        rw [hfp] at hmem
        have he : e = pid := by simpa using hmem
        subst he
        unfold chainReach
        rw [hpio]
        simp
      | some prec =>
        unfold ancestorIdsAux at hmem
        rw [hfp] at hmem
        dsimp only at hmem
        rcases List.mem_cons.1 hmem with rfl | hdeep
        · unfold chainReach
          rw [hpio]
          simp
        · have hrec : chainReach w f pid e = true := ih prec.parent e pid prec hdeep hfp rfl
          unfold chainReach
          rw [hpio]
          simp [hrec]

theorem ancestorAux_found (w : World)
    (hpex : ∀ b ∈ w.albums, ∀ pid, b.parent = some pid → ∃ p ∈ w.albums, p.id = pid) :
    ∀ (f : Nat) (op : Option Nat) (e : Nat),
      e ∈ ancestorIdsAux f w op → (∃ b0 ∈ w.albums, b0.parent = op) →
      ∃ q ∈ w.albums, q.id = e := by
  intro f
  induction f with
  | zero => intro op e h _; cases op <;> simp [ancestorIdsAux] at h
  | succ f ih =>
    intro op e hmem hsrc
    cases op with
    | none => cases hmem
    | some pid =>
      obtain ⟨b0, hb0m, hb0p⟩ := hsrc
      obtain ⟨p, hpm, hpid⟩ := hpex b0 hb0m pid hb0p
      have hfp : ∃ prec, findAlbum w pid = some prec := by
        cases hf : findAlbum w pid with
        | none =>
          unfold findAlbum at hf
          rw [List.find?_eq_none] at hf
          exact absurd (by simp [hpid] : (fun b => b.id == pid) p = true) (hf p hpm)
        | some prec => exact ⟨prec, rfl⟩
      obtain ⟨prec, hfp⟩ := hfp
      unfold ancestorIdsAux at hmem
      rw [hfp] at hmem
      dsimp only at hmem
      obtain ⟨hprecm, hprecid⟩ := findAlbum_props hfp
      rcases List.mem_cons.1 hmem with rfl | hdeep
      · exact ⟨prec, hprecm, hprecid⟩
      · exact ih prec.parent e hdeep ⟨prec, hprecm, rfl⟩

theorem descAux_found (w : World) :
    ∀ (f r e : Nat), e ∈ descendantIdsAux f w r → ∃ c ∈ w.albums, c.id = e := by
  intro f
  induction f with
  | zero => intro r e h; cases h
  | succ f ih =>
    intro r e h
    rw [descAux_succ, List.mem_flatMap] at h
    obtain ⟨c, hc, hce⟩ := h
    have hcmem : c ∈ w.albums := (List.mem_filter.1 hc).1
    rcases List.mem_cons.1 hce with rfl | hdeep
    · exact ⟨c, hcmem, rfl⟩
    · exact ih c.id e hdeep

theorem goodSeq_parent_mem (w : World) (aId : Nat) (sub : Nat → Bool) :
    ∀ (T al : List Nat), GoodSeq w aId sub al T →
      ∀ d ∈ T, sub d = true →
      ∃ p, parentIdOf w d = some p ∧ (p ∈ al ∨ p ∈ T) := by
  intro T
  induction T with
  | nil => intro al _ d h; cases h
  | cons x T ih =>
    intro al hgs d hd hsub
    obtain ⟨hne, hpar, hrest⟩ := hgs
    rcases List.mem_cons.1 hd with rfl | hdT
    · obtain ⟨p, hp, hpal⟩ := hpar hsub
      exact ⟨p, hp, Or.inl hpal⟩
    · obtain ⟨p, hp, hpal⟩ := ih (x :: al) hrest d hdT hsub
      rcases hpal with hpal | hpT
      · rcases List.mem_cons.1 hpal with rfl | hpal'
        · exact ⟨p, hp, Or.inr (List.mem_cons_self _ _)⟩
        · exact ⟨p, hp, Or.inl hpal'⟩
      · exact ⟨p, hp, Or.inr (List.mem_cons_of_mem _ hpT)⟩

/-! ## The propagation target list -/

theorem targets_sub (w1 : World) (sp : Str) :
    ∀ (A : List Nat) (e : Nat),
      e ∈ ((A.filterMap (findAlbum w1)).filter (fun b => b.path ≠ sp)).map (fun b => b.id) →
      e ∈ A := by
  intro A e he
  obtain ⟨b, hbf, hbe⟩ := List.mem_map.1 he
  have hbfm := (List.mem_filter.1 hbf).1
  obtain ⟨fid, hfidA, hfb⟩ := List.mem_filterMap.1 hbfm
  obtain ⟨-, hbid⟩ := findAlbum_props hfb
  rw [← hbe, hbid]
  exact hfidA

theorem targets_desc_exact (w1 : World) (sp : Str) :
    ∀ (D : List Nat),
      (∀ d ∈ D, ∃ br, findAlbum w1 d = some br ∧ ¬ br.path = sp) →
      ((D.filterMap (findAlbum w1)).filter (fun b => b.path ≠ sp)).map (fun b => b.id) = D := by
  intro D
  induction D with
  | nil => intro _; rfl
  | cons d D ih =>
    intro h
    obtain ⟨br, hfb, hbp⟩ := h d (List.mem_cons_self _ _)
    obtain ⟨-, hbid⟩ := findAlbum_props hfb
    rw [List.filterMap_cons, hfb]
    rw [List.filter_cons]
    have hdec : (fun b => decide ¬ b.path = sp) br = true := by
      simp [hbp]
    simp only [hdec, if_pos]
    rw [List.map_cons, hbid, ih (fun x hx => h x (List.mem_cons_of_mem _ hx))]

theorem chainReach_destruct (w : World) :
    ∀ (f b t : Nat), chainReach w f b t = true →
      ∃ p, parentIdOf w b = some p ∧ (p = t ∨ chainReach w f p t = true) := by
  intro f
  cases f with
  | zero => intro b t h; cases h
  | succ f =>
    intro b t h
    unfold chainReach at h
    cases hpio : parentIdOf w b with
    | none => rw [hpio] at h; simp at h
    | some p =>
      rw [hpio] at h
      dsimp only at h
      have h' : p = t ∨ chainReach w f p t = true := by simpa using h
      rcases h' with h1 | h2
      · exact ⟨p, rfl, Or.inl h1⟩
      · exact ⟨p, rfl, Or.inr (chainReach_mono w (by omega) h2)⟩

/-- Inside the saving node's subtree, every intended final path extends the
saving node's new path by a nonempty suffix and is itself well formed. -/
theorem expPath_subtree (w : World) (aId : Nat) (N : Str) (dm : Nat → Nat) (L : Nat)
    (hdm : ∀ b ∈ w.albums, ∀ pid, b.parent = some pid → dm pid < dm b.id)
    (hLall : ∀ b ∈ w.albums, dm b.id < L)
    (hslugs : ∀ b ∈ w.albums, b.slug ≠ [] ∧ '/' ∉ b.slug)
    (hGN : GoodPath N) (hL1 : 1 ≤ L) :
    ∀ (k d : Nat), dm d < k → chainReach w L d aId = true →
      GoodPath (expPath w N aId L d) ∧
      ∃ t, expPath w N aId L d = N ++ t ∧ t ≠ [] := by
  intro k
  induction k with
  | zero => intro d h _; omega
  | succ k ih =>
    intro d hk hcr
    have hdne : d ≠ aId := by
      intro hcon
      subst hcon
      rw [chainReach_irrefl w dm hdm] at hcr
      cases hcr
    obtain ⟨p, hpio, hps⟩ := chainReach_destruct w L d aId hcr
    have hfd : ∃ brd, findAlbum w d = some brd ∧ brd.parent = some p := by
      unfold parentIdOf at hpio
      cases hfd : findAlbum w d with
      | none => rw [hfd] at hpio; cases hpio
      | some brd =>
        rw [hfd] at hpio
        exact ⟨brd, rfl, by simpa using hpio⟩
    obtain ⟨brd, hfd, hbp⟩ := hfd
    obtain ⟨hmem, hid⟩ := findAlbum_props hfd
    have hdL : dm d < L := by
      have := hLall brd hmem
      rwa [hid] at this
    have hpar := expPath_parent w N aId dm hdm d p brd L hdne hfd hbp hdL
    have hsl := hslugs brd hmem
    rcases hps with hpeq | hpsub
    · rw [hpar, hpeq, expPath_aId w N aId L hL1]
      obtain ⟨hg, t, ht, htne⟩ := goodPath_make N brd.slug hGN hsl.1 hsl.2
      exact ⟨hg, t, ht, htne⟩
    · have hpd : dm p < dm d := parentIdOf_dm w dm hdm hpio
      obtain ⟨hgp, t0, ht0, ht0ne⟩ := ih p (by omega) hpsub
      obtain ⟨hg, t1, ht1, ht1ne⟩ :=
        goodPath_make (expPath w N aId L p) brd.slug hgp hsl.1 hsl.2
      refine ⟨by rw [hpar]; exact hg, t0 ++ t1, ?_, by simp [ht0ne]⟩
      rw [hpar, ht1, ht0, List.append_assoc]

/-- The new path a save writes for the saving node is a well-formed absolute
path. -/
theorem goodPath_newpath (w : World) (aId : Nat) (a : AlbumRec) (dm : Nat → Nat)
    (ha : findAlbum w aId = some a)
    (hdm : ∀ b ∈ w.albums, ∀ pid, b.parent = some pid → dm pid < dm b.id)
    (hpex : ∀ b ∈ w.albums, ∀ pid, b.parent = some pid → ∃ p ∈ w.albums, p.id = pid)
    (hslugs : ∀ b ∈ w.albums, b.slug ≠ [] ∧ '/' ∉ b.slug)
    (hcons : ∀ b ∈ w.albums, b.id ≠ aId → b.path = make_path (parentPathOf w b) b.slug)
    (osl : Str) (hos1 : osl ≠ []) (hos2 : '/' ∉ osl)
    (hApath : a.path = make_path (parentPathOf w a) osl) :
    GoodPath (make_path (parentPathOf w a) a.slug) := by
  obtain ⟨hmemA, hidA⟩ := findAlbum_props ha
  cases hpa : a.parent with
  | none =>
    unfold parentPathOf
    rw [hpa]
    exact Or.inl rfl
  | some pFa =>
    obtain ⟨precA, hfpA⟩ := findAlbum_of_parent w hpex hmemA hpa
    rw [parentPathOf_of_found hpa hfpA]
    have hg : GoodPath precA.path :=
      path_good_all w aId a dm ha hdm hpex hslugs hcons osl hos1 hos2 hApath
        (dm pFa + 1) pFa precA (by omega) hfpA
    exact (goodPath_make precA.path a.slug hg (hslugs a hmemA).1 (hslugs a hmemA).2).1

theorem targets_found (w1 : World) (sp : Str) :
    ∀ (A : List Nat) (e : Nat),
      e ∈ ((A.filterMap (findAlbum w1)).filter (fun b => b.path ≠ sp)).map (fun b => b.id) →
      ∃ br, findAlbum w1 e = some br := by
  intro A e he
  obtain ⟨b, hbf, hbe⟩ := List.mem_map.1 he
  have hbfm := (List.mem_filter.1 hbf).1
  obtain ⟨fid, hfidA, hfb⟩ := List.mem_filterMap.1 hbfm
  obtain ⟨-, hbid⟩ := findAlbum_props hfb
  rw [← hbe, hbid]
  exact ⟨b, hfb⟩

/-- C3: spec-modelled in part (`Picture.save` and `slugify` are outside
`src/`).  For a save of node `aId` whose path changes (the recomputed path
differs from the stored one, as after a slug rename), propagation re-saves
the family so that, in the final world: the node sits at its new path `N`;
every descendant satisfies the local path law `path = parent.path + '/' +
slug` and its path extends `N` by a nonempty suffix (the new prefix);
every picture owned by the node or a descendant has `path = album.path +
'/' + slug`; and every album outside the family is untouched
(record-identical).  If the path did not change, only ancestors are
re-saved: every non-ancestor other than the node itself is untouched.
Hypotheses: the saving node exists, ids are unique, parent links are
acyclic (measured by `dm`) and point to existing rows, slugs are nonempty
and slash-free, every other node satisfies the path law, and the saving
node's stored path decomposes as parent path plus one segment (its
previous slug). -/
theorem claim_C3 (w : World) (aId : Nat) (a : AlbumRec) (dm : Nat → Nat)
    (ha : findAlbum w aId = some a)
    (hids : (w.albums.map (fun b => b.id)).Nodup)
    (hdm : ∀ b ∈ w.albums, ∀ pid, b.parent = some pid → dm pid < dm b.id)
    (hpex : ∀ b ∈ w.albums, ∀ pid, b.parent = some pid → ∃ p ∈ w.albums, p.id = pid)
    (hLall : ∀ b ∈ w.albums, dm b.id < w.albums.length)
    (hslugs : ∀ b ∈ w.albums, b.slug ≠ [] ∧ '/' ∉ b.slug)
    (hcons : ∀ b ∈ w.albums, b.id ≠ aId → b.path = make_path (parentPathOf w b) b.slug)
    (osl : Str) (hos1 : osl ≠ []) (hos2 : '/' ∉ osl)
    (hApath : a.path = make_path (parentPathOf w a) osl) :
    (make_path (parentPathOf w a) a.slug ≠ a.path →
      ((∃ ar, findAlbum (album_save true w aId) aId = some ar ∧
         ar.path = make_path (parentPathOf w a) a.slug) ∧
       (∀ d ∈ get_descendants w aId,
         ∃ dr, findAlbum (album_save true w aId) d = some dr ∧
           (∃ pid pr, dr.parent = some pid ∧
             findAlbum (album_save true w aId) pid = some pr ∧
             dr.path = make_path (some pr.path) dr.slug) ∧
           (∃ t, dr.path = make_path (parentPathOf w a) a.slug ++ t ∧ t ≠ [])) ∧
       (∀ p ∈ (album_save true w aId).pictures,
         (p.albumId = aId ∨ p.albumId ∈ get_descendants w aId) →
         ∃ ar, findAlbum (album_save true w aId) p.albumId = some ar ∧
           p.path = make_path (some ar.path) p.slug) ∧
       (∀ b ∈ w.albums, b.id ∉ get_family w aId →
         findAlbum (album_save true w aId) b.id = some b))) ∧
    (make_path (parentPathOf w a) a.slug = a.path →
      ∀ b ∈ w.albums, b.id ≠ aId → b.id ∉ get_ancestors w aId →
        findAlbum (album_save true w aId) b.id = some b) := by
  obtain ⟨hmemA, hidA⟩ := findAlbum_props ha
  set N := make_path (parentPathOf w a) a.slug with hNdef
  set L := w.albums.length with hLdef
  set a' := (save_core w a).1 with hadef
  set w1 := (saveOne w aId).1 with hw1def
  have hL1 : 1 ≤ L := by
    rw [hLdef]
    exact List.length_pos.2 (List.ne_nil_of_mem hmemA)
  have hslA := hslugs a hmemA
  obtain ⟨hscp, hscid, hscpar, hscslug⟩ := save_core_fields w a hslA.1
  have hsnw1 : save_notraverse w aId = w1 := rfl
  have hf1 : findAlbum w1 aId = some a' := by
    rw [← hsnw1]
    exact save_notraverse_found w aId a ha
  have hsk1 : Skel w w1 := by
    rw [← hsnw1]
    exact save_skel w aId hids hslugs
  have c5 := (save_core_spec w a (Or.inl hslA.1)).2.2.2.2
  rw [newSlug_of_ne a hslA.1] at c5
  have hpc : (saveOne w aId).2 = decide (N ≠ a.path) := by
    unfold saveOne
    rw [ha]
    dsimp only
    exact c5
  have hAS : album_save true w aId =
      (propagation_targets w1 aId a'.path ((saveOne w aId).2)).foldl
        (fun wacc bId => save_notraverse wacc bId) w1 := by
    conv_lhs => rw [album_save]
    rw [hw1def] at hf1
    rw [hf1]
    rfl
  -- descendant facts in the pre-save world
  have hdesc : ∀ d ∈ get_descendants w aId,
      ∃ c, findAlbum w d = some c ∧ c ∈ w.albums ∧ c.id = d ∧
        chainReach w L d aId = true ∧ d ≠ aId ∧ dm d < L := by
    intro d hd
    obtain ⟨c, hcmem, hcid⟩ := descAux_found w L aId d hd
    have hchain : chainReach w L d aId = true := descAux_chain w hids L aId d hd
    have hdneA : d ≠ aId := by
      intro hcon
      rw [hcon] at hchain
      rw [chainReach_irrefl w dm hdm] at hchain
      cases hchain
    have hfwd : findAlbum w d = some c := by
      have := findAlbum_of_mem w hids c hcmem
      rwa [hcid] at this
    have hdL : dm d < L := by
      have := hLall c hcmem
      rwa [hcid] at this
    exact ⟨c, hfwd, hcmem, hcid, hchain, hdneA, hdL⟩
  -- ancestor facts in the pre-save world
  have hanc : ∀ e ∈ get_ancestors w aId, e ≠ aId ∧ chainReach w L e aId = false := by
    intro e he
    unfold get_ancestors at he
    rw [ha, List.mem_reverse] at he
    have hc : chainReach w L aId e = true := ancestorAux_chain w L a.parent e aId a he ha rfl
    constructor
    · intro hcon
      rw [hcon] at hc
      rw [chainReach_irrefl w dm hdm] at hc
      cases hc
    · cases hcr : chainReach w L e aId with
      | false => rfl
      | true =>
        exfalso
        have h1 := chainReach_dm w dm hdm L aId e hc
        have h2 := chainReach_dm w dm hdm L e aId hcr
        omega
  constructor
  · -- path changed: full family cascade
    intro hNe
    have hpct : (saveOne w aId).2 = true := by
      rw [hpc]
      exact decide_eq_true hNe
    rw [hpct] at hAS
    have hGN : GoodPath N :=
      goodPath_newpath w aId a dm ha hdm hpex hslugs hcons osl hos1 hos2 hApath
    -- the target list is: surviving ancestors, then exactly the descendants
    have hPT0 : propagation_targets w1 aId a'.path true =
        (((get_ancestors w aId ++ aId :: get_descendants w aId).filterMap
          (findAlbum w1)).filter (fun b => b.path ≠ a'.path)).map (fun b => b.id) := by
      unfold propagation_targets
      rw [if_pos rfl]
      unfold get_family
      rw [skel_get_ancestors hsk1, skel_get_descendants hsk1]
    have hmid : (((aId :: get_descendants w aId).filterMap (findAlbum w1)).filter
        (fun b => b.path ≠ a'.path)).map (fun b => b.id) = get_descendants w aId := by
      rw [List.filterMap_cons, hf1, List.filter_cons, if_neg (by simp)]
      refine targets_desc_exact w1 a'.path (get_descendants w aId) ?_
      intro d hd
      obtain ⟨c, hfwd, hcmem, hcid, hchain, hdneA, hdL⟩ := hdesc d hd
      have hfw1d : findAlbum w1 d = some c := by
        rw [← hsnw1]
        rw [save_notraverse_other w aId d hdneA]
        exact hfwd
      refine ⟨c, hfw1d, ?_⟩
      rw [hscp]
      exact desc_not_skipped w aId a dm L ha hdm hpex hslugs hcons osl hos1 hos2 hApath
        d c hfwd hchain
    set TA := (((get_ancestors w aId).filterMap (findAlbum w1)).filter
      (fun b => b.path ≠ a'.path)).map (fun b => b.id) with hTAdef
    have hPT : propagation_targets w1 aId a'.path true = TA ++ get_descendants w aId := by
      rw [hPT0, List.filterMap_append, List.filter_append, List.map_append, hmid]
    rw [hPT] at hAS
    have htasub : ∀ e ∈ TA, e ∈ get_ancestors w aId := fun e he =>
      targets_sub w1 a'.path (get_ancestors w aId) e he
    have htafacts : ∀ e ∈ TA, e ≠ aId ∧ chainReach w L e aId = false := fun e he =>
      hanc e (htasub e he)
    have hGSTA : GoodSeq w aId (fun b => chainReach w L b aId) [aId] TA :=
      goodSeq_outside w aId _ TA [aId] htafacts
    have hdne_all : ∀ e ∈ descendantIdsAux L w aId, e ≠ aId := by
      intro e he hcon
      have hc := descAux_chain w hids L aId e he
      rw [hcon] at hc
      rw [chainReach_irrefl w dm hdm] at hc
      cases hc
    have hGSD : GoodSeq w aId (fun b => chainReach w L b aId) (TA.reverse ++ [aId])
        (get_descendants w aId) :=
      descAux_goodSeq w aId _ hids L aId (TA.reverse ++ [aId]) (by simp) hdne_all
    have hGS : GoodSeq w aId (fun b => chainReach w L b aId) [aId]
        (TA ++ get_descendants w aId) :=
      goodSeq_append w aId _ hGSTA hGSD
    have htg : ∀ d ∈ TA ++ get_descendants w aId, findAlbum w d ≠ none := by
      intro d hd
      rcases List.mem_append.1 hd with hdta | hdd
      · obtain ⟨br, hbr⟩ := targets_found w1 a'.path (get_ancestors w aId) d hdta
        have hne := (htafacts d hdta).1
        rw [← hsnw1, save_notraverse_other w aId d hne] at hbr
        rw [hbr]
        exact fun hc => Option.noConfusion hc
      · obtain ⟨c, hfwd, -⟩ := hdesc d hdd
        rw [hfwd]
        exact fun hc => Option.noConfusion hc
    have hinvp0 : ∀ x ∈ [aId], ∃ xr, findAlbum w1 x = some xr ∧
        xr.path = expPath w N aId L x := by
      intro x hx
      have hxa : x = aId := by simpa using hx
      rw [hxa]
      exact ⟨a', hf1, by rw [expPath_aId w N aId L hL1]; exact hscp⟩
    have hinvout0 : ∀ b br, findAlbum w1 b = some br → b ≠ aId →
        chainReach w L b aId = false → br.path = pathOf w b := by
      intro b br hb hbne _
      rw [← hsnw1, save_notraverse_other w aId b hbne] at hb
      unfold pathOf
      rw [hb]
      rfl
    have hinvpic0 : ∀ p ∈ w1.pictures, p.albumId ∈ [aId] →
        ∃ ar, findAlbum w1 p.albumId = some ar ∧
          p.path = make_path (some ar.path) p.slug := by
      intro p hp hpx
      have hpa : p.albumId = aId := by simpa using hpx
      rw [← hsnw1] at hp
      rw [save_notraverse_pictures w aId a ha] at hp
      obtain ⟨p0, hp0, hfp0⟩ := List.mem_map.1 hp
      have hfw3 : findAlbum (putAlbum w a') aId = some a' := by
        have := findAlbum_putAlbum_found w a' ⟨a, hmemA, by rw [hscid, hidA]⟩
        rwa [hscid, hidA] at this
      by_cases hp0a : p0.albumId = aId
      · rw [if_pos hp0a] at hfp0
        have hps := picture_save_path (putAlbum w a') p0 a' (by rw [hp0a]; exact hfw3)
        refine ⟨a', by rw [hpa]; exact hf1, ?_⟩
        rw [← hfp0, hps]
      · rw [if_neg hp0a] at hfp0
        rw [← hfp0] at hpa
        exact absurd hpa hp0a
    obtain ⟨r1, r2, r3⟩ := fold_inv w aId N dm L hids hdm hpex hLall hslugs hcons
      (TA ++ get_descendants w aId) [aId] w1 hsk1 hGS htg hinvp0 hinvout0 hinvpic0
    have hskAll : Skel w ((TA ++ get_descendants w aId).foldl
        (fun wacc bId => save_notraverse wacc bId) w1) :=
      skel_trans hsk1 (fold_skel (TA ++ get_descendants w aId) w1
        (skel_nodup hsk1 hids) (skel_slugs hsk1 hslugs))
    refine ⟨?_, ?_, ?_, ?_⟩
    · -- the saving node sits at its new path
      obtain ⟨ar, har, harp⟩ := r1 aId (Or.inl (List.mem_cons_self _ _))
      rw [expPath_aId w N aId L hL1] at harp
      exact ⟨ar, by rw [hAS]; exact har, harp⟩
    · -- every descendant: local path law and the new prefix
      intro d hd
      obtain ⟨c, hfwd, hcmem, hcid, hchain, hdneA, hdL⟩ := hdesc d hd
      have hdT : d ∈ TA ++ get_descendants w aId := List.mem_append_right TA hd
      obtain ⟨dr, hdr, hdrp⟩ := r1 d (Or.inr hdT)
      obtain ⟨dr2, hdr2, hske⟩ := skel_findAlbum_some hskAll hfwd
      rw [hdr] at hdr2
      injection hdr2 with hdr2e
      subst hdr2e
      obtain ⟨p, hpio, hpmem⟩ := goodSeq_parent_mem w aId _ (TA ++ get_descendants w aId)
        [aId] hGS d hdT hchain
      have hcp : c.parent = some p := by
        unfold parentIdOf at hpio
        rw [hfwd] at hpio
        simpa using hpio
      obtain ⟨pr, hpr, hprp⟩ := r1 p hpmem
      have hpath : dr.path = make_path (some pr.path) dr.slug := by
        rw [hdrp, expPath_parent w N aId dm hdm d p c L hdneA hfwd hcp hdL, hprp, hske.2.2]
      obtain ⟨-, t, ht, htne⟩ := expPath_subtree w aId N dm L hdm hLall hslugs hGN hL1
        (dm d + 1) d (by omega) hchain
      refine ⟨dr, by rw [hAS]; exact hdr, ⟨p, pr, ?_, by rw [hAS]; exact hpr, hpath⟩,
        t, by rw [hdrp, ht], htne⟩
      rw [hske.2.1]
      exact hcp
    · -- pictures of the node and of descendants satisfy the path law
      intro p hp hx
      rw [hAS] at hp
      have hx' : p.albumId ∈ [aId] ∨ p.albumId ∈ TA ++ get_descendants w aId := by
        rcases hx with hx | hx
        · exact Or.inl (by simp [hx])
        · exact Or.inr (List.mem_append_right TA hx)
      obtain ⟨ar, har, hpath⟩ := r3 p hp hx'
      exact ⟨ar, by rw [hAS]; exact har, hpath⟩
    · -- frame: albums outside the family are record-identical
      intro b hb hnf
      have hbneA : b.id ≠ aId := by
        intro hcon
        exact hnf (by rw [hcon]; exact List.mem_append_right _ (List.mem_cons_self _ _))
      have hbnT : b.id ∉ TA ++ get_descendants w aId := by
        intro hc
        rcases List.mem_append.1 hc with hcta | hcd
        · exact hnf (List.mem_append_left _ (htasub _ hcta))
        · exact hnf (List.mem_append_right _ (List.mem_cons_of_mem _ hcd))
      rw [hAS, fold_frame (TA ++ get_descendants w aId) w1 b.id hbnT, ← hsnw1,
        save_notraverse_other w aId b.id hbneA]
      exact findAlbum_of_mem w hids b hb
  · -- path unchanged: only ancestors are touched
    intro hNeq
    have hpcf : (saveOne w aId).2 = false := by
      rw [hpc, hNeq]
      simp
    rw [hpcf] at hAS
    have hPT' : propagation_targets w1 aId a'.path false =
        (((get_ancestors w aId).filterMap (findAlbum w1)).filter
          (fun b => b.path ≠ a'.path)).map (fun b => b.id) := by
      unfold propagation_targets
      rw [if_neg (by simp)]
      rw [skel_get_ancestors hsk1]
    rw [hPT'] at hAS
    intro b hb hbneA hbnA
    have hbnT : b.id ∉ (((get_ancestors w aId).filterMap (findAlbum w1)).filter
        (fun b => b.path ≠ a'.path)).map (fun b => b.id) := by
      intro hc
      exact hbnA (targets_sub w1 a'.path (get_ancestors w aId) b.id hc)
    rw [hAS, fold_frame _ w1 b.id hbnT, ← hsnw1, save_notraverse_other w aId b.id hbneA]
    exact findAlbum_of_mem w hids b hb

theorem claim_C3_witness :
    let root : AlbumRec :=
      { id := 0, parent := none, slug := ['r'], path := ['/'], title := [],
        description := [], coverPicture := none, date := none }
    let alb : AlbumRec :=
      { id := 1, parent := some 0, slug := "x2".data, path := "/x1".data, title := [],
        description := [], coverPicture := none, date := none }
    let child : AlbumRec :=
      { id := 2, parent := some 1, slug := ['y'], path := "/x1/y".data, title := [],
        description := [], coverPicture := none, date := none }
    let pic : PictureRec :=
      { id := 10, albumId := 1, slug := ['p'], path := "/x1/p".data, isPublic := true,
        hasThumbnail := true, hasOriginal := true,
        exifDate := Except.error ExifError.valueError }
    let w : World := { albums := [root, alb, child], pictures := [pic] }
    (make_path (parentPathOf w alb) alb.slug ≠ alb.path →
      ((∃ ar, findAlbum (album_save true w 1) 1 = some ar ∧
         ar.path = make_path (parentPathOf w alb) alb.slug) ∧
       (∀ d ∈ get_descendants w 1,
         ∃ dr, findAlbum (album_save true w 1) d = some dr ∧
           (∃ pid pr, dr.parent = some pid ∧
             findAlbum (album_save true w 1) pid = some pr ∧
             dr.path = make_path (some pr.path) dr.slug) ∧
           (∃ t, dr.path = make_path (parentPathOf w alb) alb.slug ++ t ∧ t ≠ [])) ∧
       (∀ p ∈ (album_save true w 1).pictures,
         (p.albumId = 1 ∨ p.albumId ∈ get_descendants w 1) →
         ∃ ar, findAlbum (album_save true w 1) p.albumId = some ar ∧
           p.path = make_path (some ar.path) p.slug) ∧
       (∀ b ∈ w.albums, b.id ∉ get_family w 1 →
         findAlbum (album_save true w 1) b.id = some b))) ∧
    (make_path (parentPathOf w alb) alb.slug = alb.path →
      ∀ b ∈ w.albums, b.id ≠ 1 → b.id ∉ get_ancestors w 1 →
        findAlbum (album_save true w 1) b.id = some b) := by
  intro root alb child pic w
  refine claim_C3 w 1 alb (fun i => i) (by decide) (by decide) ?_ ?_ (by decide) (by decide)
    (by decide) "x1".data (by decide) (by decide) (by decide)
  · intro b hb pid hp
    fin_cases hb <;> (simp_all; try omega)
  · intro b hb pid hp
    fin_cases hb <;> simp at hp
    · exact ⟨root, by simp, by rw [← hp]⟩
    · exact ⟨alb, by simp, by rw [← hp]⟩

end Edegal
